import Mathlib

/-!
Verification development for the conversation reconciliation and prompt-assembly
pipeline of the `human-in-the-loop-sogooddigital` repository.

The TypeScript sources are shallowly embedded here:
* JavaScript strings are modelled as `String` / `List Char`; the JS string
  primitives used by the code (`trim`, `toLowerCase`, `includes`, `split`,
  `slice`, whitespace collapapse) are modelled explicitly on `List Char`.
* The WHATWG `URL` class (a platform library, not repository code) is modelled
  for the `http(s)` URLs the code feeds it: scheme/host/port/path/query/fragment
  splitting, host lower-casing, default-port elision and decimal port printing.
  The model does not perform percent-encoding, IDNA or dot-segment
  normalization, and it rejects URLs containing whitespace after the scheme;
  such inputs are simply outside the modelled domain of `canonicalizeCompanyUrl`.
* `JSON.parse` (also a platform function) is passed in as an oracle
  `String → Option JsValue`; a `none` result models a parse exception.
* Fetches, environment lookups and the Anthropic call are request-scoped
  effects; the repair loop is modelled against an oracle `Nat → Option String`
  giving the model reply (or provider error) of each repair pass.
-/

namespace Sogood

/-- JavaScript-style whitespace test used by the embedded string primitives
(space, tab, newline, carriage return). -/
def jsWs (c : Char) : Bool := c == ' ' || c == '\t' || c == '\n' || c == '\r'

/-- ASCII lower-casing of one character, as performed by JS `toLowerCase` and by
the WHATWG URL host parser on the ASCII hosts in scope. -/
def jsToLower (c : Char) : Char :=
  if 65 ≤ c.toNat ∧ c.toNat ≤ 90 then Char.ofNat (c.toNat + 32) else c

/-- Lower-case every character of a character list. -/
def lowerL (cs : List Char) : List Char := cs.map jsToLower

/-- Lower-case a string (JS `toLowerCase` on the ASCII range). -/
def lowerS (s : String) : String := ⟨lowerL s.data⟩

/-- Drop trailing whitespace (JS `trimEnd`). -/
def trimEndL (cs : List Char) : List Char := (cs.reverse.dropWhile jsWs).reverse

/-- Drop leading and trailing whitespace (JS `trim`). -/
def trimL (cs : List Char) : List Char := ((cs.dropWhile jsWs).reverse.dropWhile jsWs).reverse

/-- JS `String.prototype.trim` on `String`. -/
def trimStr (s : String) : String := ⟨trimL s.data⟩

/-- Does the character list start with the given pattern? (pattern first). -/
def startsWithL : List Char → List Char → Bool
  | [], _ => true
  | _ :: _, [] => false
  | p :: ps, c :: cs => p == c && startsWithL ps cs

/-- Substring containment scan (JS `String.prototype.includes`), haystack first. -/
def containsL : List Char → List Char → Bool
  | [], pat => pat.isEmpty
  | c :: t, pat => startsWithL pat (c :: t) || containsL t pat

/-- JS `includes` on `String`. -/
def includesStr (s sub : String) : Bool := containsL s.data sub.data

/-- Index of the first occurrence of a pattern in a character list
(JS `String.prototype.indexOf`), used to talk about textual occurrence order. -/
def firstIndexOfL : List Char → List Char → Option Nat
  | [], pat => if pat.isEmpty then some 0 else none
  | c :: t, pat =>
    if startsWithL pat (c :: t) then some 0 else (firstIndexOfL t pat).map (· + 1)

/-- Split a character list into lines at `\n` or `\r\n` (JS `split(/\r?\n/)`). -/
def splitLinesL : List Char → List (List Char)
  | [] => [[]]
  | '\r' :: '\n' :: rest =>
    [] :: splitLinesL rest
  | '\n' :: rest =>
    [] :: splitLinesL rest
  | c :: rest =>
    match splitLinesL rest with
    | [] => [[c]]
    | l :: ls => (c :: l) :: ls

/-- Take characters until the first character satisfying `p`; returns the prefix
and the remainder (which starts with the separator when one was found). -/
def takeUntil (p : Char → Bool) : List Char → List Char × List Char
  | [] => ([], [])
  | c :: rest =>
    if p c then ([], c :: rest)
    else
      let r := takeUntil p rest
      (c :: r.1, r.2)

/-- Collapse every whitespace run into a single space
(JS `replace(/\s+/g, " ")`); `prevWs` records whether the previous character
was part of a whitespace run. -/
def collapseWsAux : Bool → List Char → List Char
  | _, [] => []
  | prevWs, c :: rest =>
    if jsWs c then
      if prevWs then collapseWsAux true rest else ' ' :: collapseWsAux true rest
    else c :: collapseWsAux false rest

/-- Collapse whitespace runs of a character list into single spaces. -/
def collapseWs (cs : List Char) : List Char := collapseWsAux false cs

/-- Join character lists with a separator (JS `Array.prototype.join`). -/
def joinSepL (sep : List Char) : List (List Char) → List Char
  | [] => []
  | [x] => x
  | x :: y :: rest => x ++ sep ++ joinSepL sep (y :: rest)

/-- Join strings with a separator string. -/
def joinSep (sep : String) (parts : List String) : String :=
  ⟨joinSepL sep.data (parts.map String.data)⟩

/-- Map with the element index (JS `map((x, i) => ...)`), starting at `i0`. -/
def mapWithIdx (f : Nat → α → β) : Nat → List α → List β
  | _, [] => []
  | i, x :: rest => f i x :: mapWithIdx f (i + 1) rest

/-- The decimal digit character of `n` (defined for `n < 10`, clamps above). -/
def digitCharOf (n : Nat) : Char :=
  match n with
  | 0 => '0' | 1 => '1' | 2 => '2' | 3 => '3' | 4 => '4'
  | 5 => '5' | 6 => '6' | 7 => '7' | 8 => '8' | _ => '9'

/-- Fuel-driven most-significant-first decimal digit printer. -/
def natDigitsAux : Nat → Nat → List Char → List Char
  | 0, _, acc => acc
  | fuel + 1, n, acc =>
    if n < 10 then digitCharOf n :: acc
    else natDigitsAux fuel (n / 10) (digitCharOf (n % 10) :: acc)

/-- Decimal digits of `n`, most significant first (canonical JS number
serialization for the natural numbers in scope). -/
def natDigits (n : Nat) : List Char := natDigitsAux (n + 1) n []

/-- Decimal representation of `n` as a string. -/
def natReprL (n : Nat) : String := ⟨natDigits n⟩

/-- Numeric value of a decimal digit list. -/
def digitsValL (ds : List Char) : Nat :=
  ds.foldl (fun a c => 10 * a + (c.toNat - 48)) 0

/-- ASCII digit test by code point (regex `[0-9]`). -/
def isDigitL (c : Char) : Bool := 48 ≤ c.toNat && c.toNat ≤ 57

/-- ASCII alphanumeric test by code point (regex `[a-z0-9]` with the `i` flag). -/
def isAlnumL (c : Char) : Bool :=
  (48 ≤ c.toNat && c.toNat ≤ 57) || (65 ≤ c.toNat && c.toNat ≤ 90) ||
    (97 ≤ c.toNat && c.toNat ≤ 122)

/-- Identifier-token character test (regex `[a-z0-9._:-]` with the `i` flag). -/
def isTokenCharL (c : Char) : Bool :=
  isAlnumL c || c == '.' || c == '_' || c == ':' || c == '-'

end Sogood

namespace CompanyLib

open Sogood

/-- Model of a parsed WHATWG URL restricted to the fields the repository
manipulates (`src/lib/company.ts` via the platform `URL` class). -/
structure JsUrl where
  scheme : String
  host : List Char
  port : Option Nat
  path : List Char
  query : Option (List Char)
  fragment : Option (List Char)
deriving DecidableEq

/-- Is `p` the default port of the scheme (80 for http, 443 for https)? -/
def defaultPortB (scheme : String) (p : Nat) : Bool :=
  (scheme == "http" && p == 80) || (scheme == "https" && p == 443)

/-- Strip a case-insensitive literal prefix; the pattern is given lower-case. -/
def stripPrefixCI : List Char → List Char → Option (List Char)
  | [], cs => some cs
  | _ :: _, [] => none
  | p :: ps, c :: cs => if jsToLower c == p then stripPrefixCI ps cs else none

/-- The characters of `"https://"`. -/
def schemeHttps : List Char := ['h', 't', 't', 'p', 's', ':', '/', '/']

/-- The characters of `"http://"`. -/
def schemeHttp : List Char := ['h', 't', 't', 'p', ':', '/', '/']

/-- Split off the (lower-cased) scheme of an http(s) URL string. -/
def splitScheme (cs : List Char) : Option (String × List Char) :=
  match stripPrefixCI schemeHttps cs with
  | some rest => some ("https", rest)
  | none =>
    match stripPrefixCI schemeHttp cs with
    | some rest => some ("http", rest)
    | none => none

/-- Does the trimmed value match `/^https?:\/\/\S+/i`? -/
def urlLikeB (cs : List Char) : Bool :=
  match splitScheme cs with
  | some (_, c :: _) => !(jsWs c)
  | _ => false

/-- End-of-authority characters in a WHATWG special URL. -/
def isAuthEnd (c : Char) : Bool := c == '/' || c == '?' || c == '#'

/-- Parse `host[:port]`, lower-casing the host and eliding the scheme's
default port, as the WHATWG URL parser does; fails on an empty host or an
invalid port. -/
def parseAuthority (scheme : String) (auth : List Char) : Option (List Char × Option Nat) :=
  let hp := takeUntil (fun c => c == ':') auth
  let host := lowerL hp.1
  if host.isEmpty then none
  else
    match hp.2 with
    | [] => some (host, none)
    | _ :: ds =>
      if ds.isEmpty then some (host, none)
      else if ds.all isDigitL then
        let p := digitsValL ds
        if p ≤ 65535 then
          if defaultPortB scheme p then some (host, none) else some (host, some p)
        else none
      else none

/-- Split the part after the authority into path, query and fragment; an empty
path serializes as `/` for special schemes. -/
def parsePath (rest : List Char) : List Char × Option (List Char) × Option (List Char) :=
  let bh := takeUntil (fun c => c == '#') rest
  let frag : Option (List Char) := match bh.2 with | [] => none | _ :: f => some f
  let pq := takeUntil (fun c => c == '?') bh.1
  let query : Option (List Char) := match pq.2 with | [] => none | _ :: q => some q
  (if pq.1.isEmpty then ['/'] else pq.1, query, frag)

/-- Model of `new URL(raw)` for the http(s) inputs in scope; `none` models the
constructor throwing.  Inputs containing whitespace after the scheme are
rejected (see the module comment for the modelled domain). -/
def parseUrl (cs : List Char) : Option JsUrl :=
  match splitScheme cs with
  | none => none
  | some (scheme, rest) =>
    if rest.any jsWs then none
    else
      let ar := takeUntil isAuthEnd rest
      match parseAuthority scheme ar.1 with
      | none => none
      | some (host, port) =>
        let pqf := parsePath ar.2
        some { scheme := scheme, host := host, port := port,
               path := pqf.1, query := pqf.2.1, fragment := pqf.2.2 }

/-- `URL#toString` for the modelled fields. -/
def serializeUrl (u : JsUrl) : List Char :=
  u.scheme.data ++ [':', '/', '/'] ++ u.host ++
    (match u.port with | none => [] | some p => ':' :: natDigits p) ++
    u.path ++
    (match u.query with | none => [] | some q => '?' :: q) ++
    (match u.fragment with | none => [] | some f => '#' :: f)

/-- Drop the scheme's default port (the explicit port-dropping step of
`canonicalizeCompanyUrl`; the parser has already elided default ports, so this
mirrors the redundant source check). -/
def dropDefaultPort (scheme : String) (port : Option Nat) : Option Nat :=
  match port with
  | some p => if defaultPortB scheme p then none else some p
  | none => none

/-- Collapse trailing slashes of a non-root pathname, keeping root as `/`
(the pathname-normalization step of `canonicalizeCompanyUrl`). -/
def normalizePathL (p : List Char) : List Char :=
  if p.isEmpty then p
  else if p = ['/'] then p
  else
    let q := (p.reverse.dropWhile (fun c => c == '/')).reverse
    if q.isEmpty then ['/'] else q

/-- `canonicalizeCompanyUrl` from `src/lib/company.ts`: trim, require an
http(s)-looking prefix, parse as a URL, strip query/fragment, lower-case the
host, drop default ports, collapse trailing slashes, and serialize; any failure
yields `null` (`none`).  A `none` input models a non-string value. -/
def canonicalizeCompanyUrl (value : Option String) : Option String :=
  match value with
  | none => none
  | some v =>
    let raw := trimL v.data
    if raw.isEmpty then none
    else if !(urlLikeB raw) then none
    else
      match parseUrl raw with
      | none => none
      | some u =>
        let u1 : JsUrl := { u with query := none, fragment := none }
        let u2 : JsUrl := { u1 with host := lowerL u1.host }
        let u3 : JsUrl := { u2 with port := dropDefaultPort u2.scheme u2.port }
        let u4 : JsUrl := { u3 with path := normalizePathL u3.path }
        some ⟨serializeUrl u4⟩

end CompanyLib

namespace RagApi

open Sogood

/-- Persisted chat message shape (`src/types/chat.ts`); `role` is kept as a raw
string so that the sanitizer's role guarantee is a real statement. -/
structure Message where
  id : String
  role : String
  content : String
  timestamp : Int
deriving DecidableEq

/-- Arbitrary JSON-like runtime value fed to the sanitizer.  JS numbers are
modelled as integers (every modelled number is finite); `undefined` object
fields are modelled by a missing key. -/
inductive JsValue where
  | null : JsValue
  | bool : Bool → JsValue
  | num : Int → JsValue
  | str : String → JsValue
  | arr : List JsValue → JsValue
  | obj : List (String × JsValue) → JsValue

/-- Property lookup on a modelled JS object (`k in m` / `m[k]`). -/
def lookupField (fields : List (String × JsValue)) (k : String) : Option JsValue :=
  (fields.find? (fun f => f.1 == k)).map (·.2)

mutual

/-- JS `String(v)` coercion for the modelled values. -/
def jsToString : JsValue → String
  | .null => "null"
  | .bool true => "true"
  | .bool false => "false"
  | .num n => toString n
  | .str s => s
  | .arr xs => joinSep "," (jsToStringElems xs)
  | .obj _ => "[object Object]"

/-- Array element stringification: `null` elements print as the empty string. -/
def jsToStringElems : List JsValue → List String
  | [] => []
  | .null :: rest => "" :: jsToStringElems rest
  | v :: rest => jsToString v :: jsToStringElems rest

end

/-- Extract the role tag when the `role` field is one of the three accepted
strings (the `role !== ...` guards of `sanitizeMessages`). -/
def roleOfField (v : Option JsValue) : Option String :=
  match v with
  | some (.str s) =>
    if s == "system" || s == "user" || s == "assistant" then some s else none
  | _ => none

/-- Element loop of `sanitizeMessages` (`src/app/api/sogood_rag/route.ts`);
`outLen` is the length of the output accumulated so far, used for synthesized
ids. -/
def sanitizeMessagesAux (cid : String) (createdAt : Int) : List JsValue → Nat → List Message
  | [], _ => []
  | m :: rest, outLen =>
    match m with
    | .obj fields =>
      match roleOfField (lookupField fields "role") with
      | none => sanitizeMessagesAux cid createdAt rest outLen
      | some role =>
        let text :=
          match lookupField fields "content" with
          | some (.str s) => s
          | some .null => ""
          | none => ""
          | some v => jsToString v
        let mid :=
          match lookupField fields "id" with
          | some (.str s) =>
            if s == "" then role ++ ":" ++ cid ++ ":" ++ natReprL outLen else s
          | _ => role ++ ":" ++ cid ++ ":" ++ natReprL outLen
        let ts :=
          match lookupField fields "timestamp" with
          | some (.num n) => n
          | _ => createdAt
        { id := mid, role := role, content := text, timestamp := ts } ::
          sanitizeMessagesAux cid createdAt rest (outLen + 1)
    | _ => sanitizeMessagesAux cid createdAt rest outLen

/-- `sanitizeMessages`: non-arrays yield `[]`; elements that are not objects or
have an unrecognized role are skipped. -/
def sanitizeMessages (value : JsValue) (cid : String) (createdAt : Int) : List Message :=
  match value with
  | .arr xs => sanitizeMessagesAux cid createdAt xs 0
  | _ => []

/-- Does an element survive the sanitizer's shape/role guards? -/
def isValidMsgElem (m : JsValue) : Bool :=
  match m with
  | .obj fields => (roleOfField (lookupField fields "role")).isSome
  | _ => false

/-- `parseStoredMessages`: stored payloads may be arrays or JSON strings;
`jsonParse` is the `JSON.parse` oracle (`none` models a parse exception) and
`now` models `Date.now()`. -/
def parseStoredMessages (jsonParse : String → Option JsValue) (now : Int)
    (value : JsValue) : List Message :=
  match value with
  | .arr xs => sanitizeMessages (.arr xs) "stored" now
  | .str s =>
    match jsonParse s with
    | some (.arr xs) => sanitizeMessages (.arr xs) "stored" now
    | _ => []
  | _ => []

/-- `normalizeMessages`: ensure the conversation's social entry is present as a
system message (no-op when already there, retag a matching non-assistant first
message, otherwise prepend a synthetic system message). -/
def normalizeMessages (conversationId : String) (createdAt : Int)
    (socialEntry : Option String) (messages : List Message) : List Message :=
  match socialEntry with
  | none => messages
  | some socialRaw =>
    let social := trimStr socialRaw
    if social == "" then messages
    else
      let hasSystemSocial :=
        messages.any (fun m => m.role == "system" && trimStr m.content == social)
      if hasSystemSocial then messages
      else
        match messages with
        | first :: rest =>
          if trimStr first.content == social && first.role != "assistant" then
            { first with role := "system" } :: rest
          else
            { id := "system:" ++ conversationId ++ ":social_entry",
              role := "system", content := social, timestamp := createdAt } ::
              first :: rest
        | [] =>
          [{ id := "system:" ++ conversationId ++ ":social_entry",
             role := "system", content := social, timestamp := createdAt }]

end RagApi

namespace RagChatApi

open Sogood

/-- Chat turn sent to the model (`role` is `"user"` or `"assistant"` in the
source type; it is kept as a string here). -/
structure ChatTurn where
  role : String
  content : String
deriving DecidableEq

/-- `sameTurn`: two possibly-missing turns match when role and trimmed content
agree; a missing side never matches. -/
def sameTurn (a b : Option ChatTurn) : Bool :=
  match a, b with
  | some a, some b => a.role == b.role && trimStr a.content == trimStr b.content
  | _, _ => false

/-- Append loop of `mergeHistory`: push each incoming turn unless it matches
the current last entry of the accumulated list. -/
def mergeHistoryAux (out : List ChatTurn) : List ChatTurn → List ChatTurn
  | [] => out
  | m :: rest =>
    if sameTurn out.getLast? (some m) then mergeHistoryAux out rest
    else mergeHistoryAux (out ++ [m]) rest

/-- `mergeHistory` (`part_003`): an empty side yields the other; an incoming
history at least as long as the stored one wins outright; otherwise the
incoming turns are treated as a possible tail-only delta. -/
def mergeHistory (stored incoming : List ChatTurn) : List ChatTurn :=
  if stored.isEmpty then incoming
  else if incoming.isEmpty then stored
  else if stored.length ≤ incoming.length then incoming
  else mergeHistoryAux stored incoming

/-- `wantsAllSocialEntries`: keyword sniff on the lower-cased latest user
message. -/
def wantsAllSocialEntries (text : Option String) : Bool :=
  match text with
  | none => false
  | some t =>
    if t == "" then false
    else
      let q := lowerS t
      (includesStr q "all" || includesStr q "every") &&
        (includesStr q "social entry" || includesStr q "social entries" ||
          includesStr q "entries from supabase" || includesStr q "entries in supabase")

/-- Persisted `sogood_rag` row projection used by the chat endpoints. -/
structure RagRow where
  id : String
  title : Option String
  social_entry : Option String
  context : Option String
  created_at : String
deriving DecidableEq

/-- Projection of a results row used by `buildAllSocialEntriesReply`. -/
structure SocialEntryItem where
  id : String
  title : String
  createdAt : String
  socialEntry : String
deriving DecidableEq

/-- The mapped-and-filtered entry list of `buildAllSocialEntriesReply`. -/
def socialEntryItems (rows : List RagRow) : List SocialEntryItem :=
  (rows.map (fun r =>
    { id := r.id,
      title := (fun t => if t == "" then "(untitled)" else t) (trimStr (r.title.getD "")),
      createdAt := r.created_at,
      socialEntry := trimStr (r.social_entry.getD "") })).filter
    (fun e => e.socialEntry.length > 0)

/-- The six lines pushed for entry `e` at zero-based index `i`. -/
def entryLines (i : Nat) (e : SocialEntryItem) : List String :=
  ["## " ++ natReprL (i + 1) ++ ". " ++ e.title,
   "id: " ++ e.id,
   "created_at: " ++ e.createdAt,
   "social_entry:",
   e.socialEntry,
   ""]

/-- `buildAllSocialEntriesReply`: deterministic numbered listing of every
results row with a non-empty social entry. -/
def buildAllSocialEntriesReply (rows : List RagRow) : String :=
  let entries := socialEntryItems rows
  if entries.isEmpty then
    "No social_entry values were found in Supabase for the selected results rows."
  else
    let lines :=
      ("Total social entries: " ++ natReprL entries.length) :: "" ::
        (mapWithIdx entryLines 0 entries).flatten
    trimStr (joinSep "\n" lines)

/-- Outcome of the multi-row chat `POST` after history merging: either the
social-entry listing short-circuit (no model call) or the model flow. -/
inductive PostRouteOutcome where
  | socialListing : String → PostRouteOutcome
  | modelFlow : PostRouteOutcome
deriving DecidableEq

/-- The branch of `POST` (`part_003`) that decides between the social-entry
listing short-circuit and invoking the language model; `allResultsRows` is the
unfiltered `type=results` fetch performed inside the branch. -/
def routeAfterMerge (latestUserMessage : Option String) (allResultsRows : List RagRow) :
    PostRouteOutcome :=
  if wantsAllSocialEntries latestUserMessage then
    .socialListing (buildAllSocialEntriesReply allResultsRows)
  else .modelFlow

end RagChatApi

namespace RagChatApi

open Sogood

/-- `normalizeCompat` applies Unicode NFKD.  NFKD is the identity on the
ASCII-range text this pipeline manipulates, so it is modelled as the identity
(the `try/catch` wrapper cannot fire in the model). -/
def normalizeCompat (s : String) : String := s

/-- `normalizeCompat` on raw character lists. -/
def normalizeCompatL (cs : List Char) : List Char := cs

/-- Dedup loop of `uniquePreserveOrder`: skip blank entries, keep the first
occurrence of each lower-cased key, preserving order; `seen` holds the
lower-cased keys already emitted. -/
def uniquePreserveOrderAux (seen : List String) : List String → List String
  | [] => []
  | raw :: rest =>
    let value := trimStr raw
    if value == "" then uniquePreserveOrderAux seen rest
    else if seen.contains (lowerS value) then uniquePreserveOrderAux seen rest
    else value :: uniquePreserveOrderAux (lowerS value :: seen) rest

/-- `uniquePreserveOrder`: trim, drop blanks, case-insensitively dedup keeping
first occurrences in order. -/
def uniquePreserveOrder (items : List String) : List String :=
  uniquePreserveOrderAux [] items

/-- Match of `/^\s*id\s*[:=]\s*([a-z0-9][a-z0-9._:-]{1,120})\s*$/i` against one
line, returning the captured token. -/
def matchIdLineSimple (line : List Char) : Option (List Char) :=
  match line.dropWhile jsWs with
  | c1 :: c2 :: r1 =>
    if jsToLower c1 == 'i' && jsToLower c2 == 'd' then
      match r1.dropWhile jsWs with
      | sep :: r3 =>
        if sep == ':' || sep == '=' then
          let r4 := r3.dropWhile jsWs
          let tok := r4.takeWhile isTokenCharL
          let rest := r4.dropWhile isTokenCharL
          if 2 ≤ tok.length && tok.length ≤ 121 &&
              (match tok with | t :: _ => isAlnumL t | [] => false) && rest.all jsWs
          then some tok else none
        else none
      | [] => none
    else none
  | _ => none

/-- All tokens matched by the line pattern of `extractPackIds`, in line order. -/
def extractLineIds (text : List Char) : List (List Char) :=
  (splitLinesL text).filterMap matchIdLineSimple

/-- Attempt to match `/"id"\s*:\s*"([a-z0-9][a-z0-9._:-]{1,120})"/i` at the
current position; on success returns the token and the remaining input after
the closing quote. -/
def tryJsonIdAt (cs : List Char) : Option (List Char × List Char) :=
  match cs with
  | q1 :: c1 :: c2 :: q2 :: r1 =>
    if q1 == '"' && jsToLower c1 == 'i' && jsToLower c2 == 'd' && q2 == '"' then
      match r1.dropWhile jsWs with
      | ':' :: r3 =>
        match r3.dropWhile jsWs with
        | '"' :: r5 =>
          let tok := r5.takeWhile isTokenCharL
          let rest := r5.dropWhile isTokenCharL
          if 2 ≤ tok.length && tok.length ≤ 121 &&
              (match tok with | t :: _ => isAlnumL t | [] => false) then
            match rest with
            | '"' :: r6 => some (tok, r6)
            | _ => none
          else none
        | _ => none
      | _ => none
    else none
  | _ => none

/-- Left-to-right global scan of the JSON id pattern; each successful match
resumes after its closing quote.  `fuel` bounds the scan and is instantiated
with the input length (every step consumes at least one character). -/
def scanJsonIdsAux : Nat → List Char → List (List Char)
  | 0, _ => []
  | _ + 1, [] => []
  | fuel + 1, c :: rest =>
    match tryJsonIdAt (c :: rest) with
    | some (tok, remaining) => tok :: scanJsonIdsAux fuel remaining
    | none => scanJsonIdsAux fuel rest

/-- All tokens matched by the JSON pattern of `extractPackIds`, in text order. -/
def extractJsonIds (text : List Char) : List (List Char) :=
  scanJsonIdsAux text.length text

/-- `extractPackIds`: line-pattern matches followed by JSON-pattern matches,
case-insensitively deduplicated preserving first occurrence in that merged
list. -/
def extractPackIds (text : String) : List String :=
  let normalized := normalizeCompat text
  uniquePreserveOrder
    ((extractLineIds normalized.data).map (fun l => (⟨l⟩ : String)) ++
      (extractJsonIds normalized.data).map (fun l => (⟨l⟩ : String)))

/-- `looksLikeContentPack`: keyword sniff on the lower-cased normalized text. -/
def looksLikeContentPack (text : String) : Bool :=
  let t := lowerS (normalizeCompat text)
  ((includesStr t "content pack" || includesStr t "final post") &&
      (includesStr t "variants" || includesStr t "asset brief")) &&
    (includesStr t "hook" && includesStr t "cta")

/-- Prompt snippet derived from a results/context row. -/
structure PromptSnippet where
  id : String
  title : Option String
  content : String
  createdAt : String
deriving DecidableEq

/-- Content-pack output controller state; `idSource` is one of
`"content_pack_id"`, `"result_row_index"`, `"none"`. -/
structure ContentPackController where
  enabled : Bool
  expectedIds : List String
  idSource : String
deriving DecidableEq

/-- `buildContentPackController`: enable when some results snippet looks like a
content pack; expected ids come from extraction, falling back to synthetic
`ROW-n` ids. -/
def buildContentPackController (results : List PromptSnippet) : ContentPackController :=
  let packLike := results.any (fun r => looksLikeContentPack r.content)
  if !packLike then { enabled := false, expectedIds := [], idSource := "none" }
  else
    let extracted := uniquePreserveOrder (results.flatMap (fun r => extractPackIds r.content))
    if extracted.length > 0 then
      { enabled := true, expectedIds := extracted, idSource := "content_pack_id" }
    else
      { enabled := true,
        expectedIds := mapWithIdx (fun i _ => "ROW-" ++ natReprL (i + 1)) 0 results,
        idSource := "result_row_index" }

/-- `isCoverageMarkerLine` on raw line characters. -/
def isCoverageMarkerLineL (line : List Char) : Bool :=
  let normalized := lowerL (trimL (normalizeCompatL line))
  startsWithL "coverage check".data normalized ||
    startsWithL "[server coverage check]".data normalized

/-- One parsed id block of a model reply. -/
structure IdBlock where
  id : String
  block : String
deriving DecidableEq

/-- Match of the block-opening line pattern after the optional `[-*]` bullet:
`(?:\*\*)?id(?:\*\*)?\s*:\s*([a-z0-9][a-z0-9._:-]{1,120})$`, including the
engine's backtracking over the optional `**` groups. -/
def matchAfterId (r1 : List Char) : Option (List Char) :=
  let tryColon := fun (r2 : List Char) =>
    match r2.dropWhile jsWs with
    | ':' :: r4 =>
      let r5 := r4.dropWhile jsWs
      let tok := r5.takeWhile isTokenCharL
      let rest := r5.dropWhile isTokenCharL
      if 2 ≤ tok.length && tok.length ≤ 121 &&
          (match tok with | t :: _ => isAlnumL t | [] => false) && rest.isEmpty
      then some tok else none
    | _ => none
  match r1 with
  | '*' :: '*' :: r2 =>
    (match tryColon r2 with
     | some tok => some tok
     | none => tryColon r1)
  | _ => tryColon r1

/-- Match `(?:\*\*)?id(?:\*\*)?\s*:\s*<token>$`, with backtracking over the
leading optional `**`. -/
def matchIdColon (r0 : List Char) : Option (List Char) :=
  let afterStars := fun (r1 : List Char) =>
    match r1 with
    | c1 :: c2 :: r2 =>
      if jsToLower c1 == 'i' && jsToLower c2 == 'd' then matchAfterId r2 else none
    | _ => none
  match r0 with
  | '*' :: '*' :: r1 =>
    (match afterStars r1 with
     | some tok => some tok
     | none => afterStars r0)
  | _ => afterStars r0

/-- Full block-opening line match, including the optional `[-*]\s*` bullet
(applied to the already-trimmed normalized line). -/
def matchBlockIdLine (line : List Char) : Option (List Char) :=
  match line with
  | b :: r =>
    if b == '-' || b == '*' then
      match matchIdColon (r.dropWhile jsWs) with
      | some tok => some tok
      | none => matchIdColon line
    else matchIdColon line
  | [] => none

/-- Flush the currently open block: an empty trimmed body is dropped. -/
def flushBlock (currentId : Option String) (currentLines : List (List Char)) : List IdBlock :=
  match currentId with
  | none => []
  | some id =>
    let block := trimL (joinSepL ['\n'] currentLines)
    if block.isEmpty then [] else [{ id := id, block := ⟨block⟩ }]

/-- Look up the canonical casing of a token in the expected-id map (keys are
lower-cased; a JS `Map` constructor keeps the last binding of a duplicate key,
hence the reversed search). -/
def lookupExpected (emap : List (String × String)) (tok : String) : Option String :=
  (emap.reverse.find? (fun kv => kv.1 == lowerS tok)).map (·.2)

/-- Line loop of `splitReplyIntoIdBlocks`: a two-state machine over lines with
the open block id and its accumulated lines; processing stops at the first
coverage-marker line. -/
def splitReplyLoop (emap : List (String × String)) :
    List (List Char) → Option String → List (List Char) → List IdBlock
  | [], cur, acc => flushBlock cur acc
  | line :: rest, cur, acc =>
    if isCoverageMarkerLineL line then flushBlock cur acc
    else
      let normalizedLine := trimL (normalizeCompatL line)
      match matchBlockIdLine normalizedLine with
      | some tokL =>
        let flushed := flushBlock cur acc
        match lookupExpected emap ⟨tokL⟩ with
        | some cid => flushed ++ splitReplyLoop emap rest (some cid) [("ID: " ++ cid).data]
        | none => flushed ++ splitReplyLoop emap rest none []
      | none =>
        match cur with
        | some _ => splitReplyLoop emap rest cur (acc ++ [line])
        | none => splitReplyLoop emap rest none acc

/-- `splitReplyIntoIdBlocks`: parse a model reply into per-id blocks keyed by
the expected ids (unmatched tokens open no block). -/
def splitReplyIntoIdBlocks (reply : String) (expectedIds : List String) : List IdBlock :=
  let emap := expectedIds.map (fun id => (lowerS id, id))
  splitReplyLoop emap (splitLinesL reply.data) none []

/-- Insert or replace a key in the block map (JS `Map.set`). -/
def setBlock (m : List (String × String)) (k v : String) : List (String × String) :=
  match m with
  | [] => [(k, v)]
  | (k0, v0) :: rest => if k0 == k then (k0, v) :: rest else (k0, v0) :: setBlock rest k v

/-- Lookup in the block map (JS `Map.get`). -/
def getBlock (m : List (String × String)) (k : String) : Option String :=
  (m.find? (fun kv => kv.1 == k)).map (·.2)

/-- `mergeIdBlocks`: merge parsed blocks into the running block map, preferring
the longer body when an id recurs (the source also returns the number of newly
added ids; the caller only compares map sizes, so the count is omitted). -/
def mergeIdBlocks (existing : List (String × String)) (blocks : List IdBlock) :
    List (String × String) :=
  blocks.foldl (fun m b =>
    match getBlock m b.id with
    | none => setBlock m b.id b.block
    | some prev => if prev.length < b.block.length then setBlock m b.id b.block else m)
    existing

/-- Coverage state: expected ids with a block, and the missing complement. -/
structure CoverageCheck where
  outputIds : List String
  missingIds : List String
deriving DecidableEq

/-- `computeCoverageFromBlocks`: output ids and missing ids in expected order. -/
def computeCoverageFromBlocks (expectedIds : List String)
    (blocksById : List (String × String)) : CoverageCheck :=
  let expected := uniquePreserveOrder expectedIds
  let outputIds := expected.filter (fun id => (getBlock blocksById id).isSome)
  let outputKeys := outputIds.map (fun id => lowerS id)
  let missingIds := expected.filter (fun id => !(outputKeys.contains (lowerS id)))
  { outputIds := outputIds, missingIds := missingIds }

/-- `compileReplyFromBlocks`: concatenate collected blocks in expected order. -/
def compileReplyFromBlocks (expectedIds : List String)
    (blocksById : List (String × String)) : String :=
  joinSep "\n\n"
    (((expectedIds.map (fun id => trimStr ((getBlock blocksById id).getD ""))).filter
      (fun b => b.length > 0)))

/-- `buildServerCoverageCheckBlock`: the trailing server-side coverage report. -/
def buildServerCoverageCheckBlock (inputIds outputIds missingIds : List String) : String :=
  joinSep "\n"
    ["[SERVER COVERAGE CHECK]",
     "Input IDs: [" ++ joinSep ", " inputIds ++ "]",
     "Output IDs: [" ++ joinSep ", " outputIds ++ "]",
     "Missing IDs: [" ++ joinSep ", " missingIds ++ "]"]

/-- Repair-loop state: the running block map, the number of repair passes
issued, and the consecutive-stall counter. -/
structure RepairState where
  blocks : List (String × String)
  passes : Nat
  stalled : Nat
deriving DecidableEq

/-- The repair `while` loop of `POST` (`part_003`).  `oracle n` is the model
reply of pass `n` (`none` models a provider error, which counts as a stalled
pass); the repair instruction itself only determines the oracle's answer and
is absorbed by it.  `fuel` equals `maxPasses - passes`, which makes the
`passes < maxPasses` guard structural.  Returns the final state and the
`targetIds` batch of each executed pass, in order. -/
def repairLoopAux (expectedIds : List String) (batchSize : Nat)
    (oracle : Nat → Option String) :
    Nat → RepairState → RepairState × List (List String)
  | 0, st => (st, [])
  | fuel + 1, st =>
    let cov := computeCoverageFromBlocks expectedIds st.blocks
    if cov.missingIds.isEmpty then (st, [])
    else if 2 ≤ st.stalled then (st, [])
    else
      let targetIds := cov.missingIds.take batchSize
      match oracle st.passes with
      | none =>
        let st1 : RepairState :=
          { blocks := st.blocks, passes := st.passes + 1, stalled := st.stalled + 1 }
        let r := repairLoopAux expectedIds batchSize oracle fuel st1
        (r.1, targetIds :: r.2)
      | some reply =>
        let blocks1 := mergeIdBlocks st.blocks (splitReplyIntoIdBlocks reply expectedIds)
        let st1 : RepairState :=
          { blocks := blocks1, passes := st.passes + 1,
            stalled := if st.blocks.length < blocks1.length then 0 else st.stalled + 1 }
        let r := repairLoopAux expectedIds batchSize oracle fuel st1
        (r.1, targetIds :: r.2)

/-- Run the repair loop from the state after the first completion. -/
def repairLoop (expectedIds : List String) (batchSize maxPasses : Nat)
    (oracle : Nat → Option String) (blocks0 : List (String × String)) :
    RepairState × List (List String) :=
  repairLoopAux expectedIds batchSize oracle maxPasses
    { blocks := blocks0, passes := 0, stalled := 0 }

/-- One-line compaction used by the system-prompt index
(`compact` inside `buildSystemPrompt`). -/
def compact (text : String) (max : Nat) : String :=
  let oneLine := trimL (collapseWs text.data)
  if oneLine.length ≤ max then ⟨oneLine⟩
  else ⟨trimEndL (oneLine.take (max - 3)) ++ ['.', '.', '.']⟩

/-- First non-blank line of a snippet (`firstLine` inside `buildSystemPrompt`). -/
def firstLineNonEmpty (text : String) : String :=
  ⟨trimL (((splitLinesL text.data).find? (fun x => !(trimL x).isEmpty)).getD [])⟩

/-- One row of the RESULTS/CONTEXT index (`formatIndex` inside
`buildSystemPrompt`): the content excerpt is compacted to 140 characters. -/
def formatIndexLine (i : Nat) (c : PromptSnippet) : String :=
  let date := if c.createdAt == "" then "unknown-date" else (⟨c.createdAt.data.take 10⟩ : String)
  let label :=
    (fun t => if t == "" then "row-" ++ natReprL (i + 1) else t) (trimStr (c.title.getD ""))
  "#" ++ natReprL (i + 1) ++ " | " ++ date ++ " | " ++ label ++ " | " ++
    compact (firstLineNonEmpty c.content) 140

/-- `compactSnippet` (fallback reply compaction). -/
def compactSnippet (text : String) (max : Nat) : String :=
  let normalized := trimL (collapseWs text.data)
  if normalized.length ≤ max then ⟨normalized⟩
  else ⟨trimEndL (normalized.take (max - 3)) ++ ['.', '.', '.']⟩

/-- Inputs of `buildFallbackReply`. -/
structure FallbackArgs where
  providerError : String
  companyUrl : Option String
  title : String
  latestUserMessage : Option String
  results : List PromptSnippet
  contexts : List PromptSnippet

/-- Numbered heading of one snippet inside the fallback reply. -/
def fallbackHeading (i : Nat) (s : PromptSnippet) : String :=
  match s.title with
  | some t =>
    if trimStr t == "" then natReprL (i + 1) ++ ". Source"
    else natReprL (i + 1) ++ ". " ++ trimStr t
  | none => natReprL (i + 1) ++ ". Source"

/-- `buildFallbackReply`: deterministic data-only reply used when the initial
model call fails. -/
def buildFallbackReply (a : FallbackArgs) : String :=
  let lowCredits := containsL (lowerL a.providerError.data) "credit balance is too low".data
  let snippets := a.results ++ a.contexts
  let snippetBlock :=
    if snippets.isEmpty then "No stored results/context were found for this conversation."
    else
      joinSep "\n\n"
        (mapWithIdx (fun i s => fallbackHeading i s ++ "\n" ++ compactSnippet s.content 320)
          0 snippets)
  let lines :=
    ["I could not reach the configured language model, so this is a fallback response from stored data."]
    ++ (if lowCredits then ["Anthropic API credits are currently exhausted."] else [])
    ++ ["Conversation: " ++ a.title]
    ++ (match a.companyUrl with
        | some c => if c == "" then [] else ["Company URL: " ++ c]
        | none => [])
    ++ (match a.latestUserMessage with
        | some l => if l == "" then [] else ["Latest request: " ++ compactSnippet l 180]
        | none => [])
    ++ ["", "Relevant data:", snippetBlock]
    ++ (if lowCredits then ["", "Add Anthropic credits and retry to restore full AI responses."] else [])
  joinSep "\n" lines

/-- `toSnippets` of the multi-row chat endpoint (`part_003`): derive content
from `context ?? social_entry ?? ""`, trim, and drop empty rows — with no
length truncation. -/
def toSnippets (rows : List RagRow) : List PromptSnippet :=
  (rows.map (fun r =>
    ({ id := r.id, title := r.title,
       content := trimStr (r.context.getD (r.social_entry.getD "")),
       createdAt := r.created_at } : PromptSnippet))).filter
    (fun r => r.content.length > 0)

end RagChatApi

namespace ChatApi

open Sogood RagChatApi

/-- Snippet shape of the legacy single-conversation chat endpoint. -/
structure ChatSnippet where
  title : Option String
  content : String
deriving DecidableEq

/-- `toSnippets` of the legacy chat endpoint (`src/app/api/chat/route.ts`):
derive and trim content, drop empty rows, then truncate bodies longer than
4000 characters to 4000 characters plus an ellipsis character. -/
def toSnippets (rows : List RagRow) : List ChatSnippet :=
  ((rows.map (fun r =>
    ({ title := r.title,
       content := trimStr (r.context.getD (r.social_entry.getD "")) } : ChatSnippet))).filter
    (fun r => r.content.length > 0)).map
    (fun r =>
      { r with content :=
          if r.content.length > 4000 then (⟨r.content.data.take 4000 ++ ['…']⟩ : String)
          else r.content })

end ChatApi

namespace CompanyLib

open Sogood

/-- Invariants of the canonical URL form produced by `canonicalizeCompanyUrl`:
lower-case special scheme, non-empty lower-case host free of whitespace,
authority terminators and colons, a bounded non-default port, a slash-rooted
path free of whitespace and query/fragment delimiters with no trailing slash
(except the root path), and no query or fragment. -/
structure IsCanonUrl (u : JsUrl) : Prop where
  scheme_ok : u.scheme = "http" ∨ u.scheme = "https"
  host_ne : u.host ≠ []
  host_lower : lowerL u.host = u.host
  host_no_ws : ∀ c ∈ u.host, jsWs c = false
  host_no_end : ∀ c ∈ u.host, isAuthEnd c = false
  host_no_colon : ∀ c ∈ u.host, (c == ':') = false
  port_ok : ∀ p, u.port = some p → p ≤ 65535 ∧ defaultPortB u.scheme p = false
  path_head : ∃ t, u.path = '/' :: t
  path_no_ws : ∀ c ∈ u.path, jsWs c = false
  path_no_q : ∀ c ∈ u.path, (c == '?') = false
  path_no_h : ∀ c ∈ u.path, (c == '#') = false
  path_norm : u.path = ['/'] ∨ ∀ y, u.path.getLast? = some y → (y == '/') = false
  query_none : u.query = none
  fragment_none : u.fragment = none

/-- The serialized port tail (`":" + port` when a port is present), naming the
port branch of `serializeUrl`. -/
def portTailL : Option Nat → List Char
  | none => []
  | some p => ':' :: natDigits p

end CompanyLib


namespace Sogood

theorem dropWhile_eq_self_of_head (p : α → Bool) (l : List α)
    (h : ∀ x, l.head? = some x → p x = false) : l.dropWhile p = l := by
  cases l with
  | nil => rfl
  | cons a t =>
    rw [List.dropWhile_cons, h a rfl]
    simp

theorem head?_dropWhile_false (p : α → Bool) (l : List α) (x : α)
    (h : (l.dropWhile p).head? = some x) : p x = false := by
  have := List.head?_dropWhile_not p l
  rw [h] at this
  exact this

theorem getLast?_dropWhile (p : α → Bool) (l : List α) (h : l.dropWhile p ≠ []) :
    (l.dropWhile p).getLast? = l.getLast? := by
  obtain ⟨t, ht⟩ := List.dropWhile_suffix (l := l) p
  conv_rhs => rw [← ht]
  rw [List.getLast?_append]
  cases hB : (l.dropWhile p).getLast? with
  | none => exact absurd (List.getLast?_eq_none_iff.mp hB) h
  | some b => rfl

theorem trimL_idem (cs : List Char) : trimL (trimL cs) = trimL cs := by
  unfold trimL
  set A := cs.dropWhile jsWs with hA
  set B := A.reverse.dropWhile jsWs with hB
  by_cases hBnil : B = []
  · simp [hBnil]
  · have h1 : B.reverse.dropWhile jsWs = B.reverse := by
      apply dropWhile_eq_self_of_head
      intro x hx
      rw [← List.getLast?_eq_head?_reverse] at hx
      rw [hB, getLast?_dropWhile _ _ (by rw [← hB]; exact hBnil)] at hx
      rw [List.getLast?_eq_head?_reverse, List.reverse_reverse] at hx
      exact head?_dropWhile_false jsWs cs x (hA ▸ hx)
    have h2 : B.reverse.reverse.dropWhile jsWs = B := by
      rw [List.reverse_reverse]
      apply dropWhile_eq_self_of_head
      intro x hx
      exact head?_dropWhile_false jsWs A.reverse x (hB ▸ hx)
    rw [h1, h2]

theorem trimL_eq_self (cs : List Char)
    (h1 : ∀ x, cs.head? = some x → jsWs x = false)
    (h2 : ∀ x, cs.getLast? = some x → jsWs x = false) : trimL cs = cs := by
  unfold trimL
  rw [dropWhile_eq_self_of_head jsWs cs h1]
  rw [dropWhile_eq_self_of_head jsWs cs.reverse
    (fun x hx => h2 x (by rwa [List.getLast?_eq_head?_reverse]))]
  exact List.reverse_reverse cs

theorem trimStr_idem (s : String) : trimStr (trimStr s) = trimStr s := by
  unfold trimStr
  exact congrArg String.mk (trimL_idem s.data)

theorem startsWithL_iff (p s : List Char) : startsWithL p s = true ↔ ∃ r, s = p ++ r := by
  induction p generalizing s with
  | nil => simp [startsWithL]
  | cons a ps ih =>
    cases s with
    | nil =>
      simp only [startsWithL]
      constructor
      · intro h; exact absurd h (by simp)
      · rintro ⟨r, hr⟩; exact absurd hr (by simp)
    | cons c cs =>
      simp only [startsWithL, Bool.and_eq_true, beq_iff_eq, ih]
      constructor
      · rintro ⟨rfl, r, rfl⟩; exact ⟨r, rfl⟩
      · rintro ⟨r, hr⟩
        rw [List.cons_append] at hr
        obtain ⟨h1, h2⟩ := List.cons.inj hr
        exact ⟨h1.symm, r, h2⟩

theorem containsL_iff (s p : List Char) : containsL s p = true ↔ ∃ a b, s = a ++ p ++ b := by
  induction s with
  | nil =>
    simp only [containsL, List.isEmpty_iff]
    constructor
    · rintro rfl; exact ⟨[], [], rfl⟩
    · rintro ⟨a, b, h⟩
      rcases List.append_eq_nil.mp (List.append_eq_nil.mp h.symm).1 with ⟨_, h2⟩
      exact h2
  | cons c t ih =>
    simp only [containsL, Bool.or_eq_true, startsWithL_iff, ih]
    constructor
    · rintro (⟨r, hr⟩ | ⟨a, b, hb⟩)
      · exact ⟨[], r, by simp [hr]⟩
      · exact ⟨c :: a, b, by simp [hb]⟩
    · rintro ⟨a, b, hb⟩
      cases a with
      | nil => exact Or.inl ⟨b, by simpa using hb⟩
      | cons a0 arest =>
        right
        refine ⟨arest, b, ?_⟩
        simpa using List.cons.inj hb |>.2

theorem containsL_of_decomp {s p a b : List Char} (h : s = a ++ p ++ b) :
    containsL s p = true :=
  (containsL_iff s p).mpr ⟨a, b, h⟩

theorem containsL_of_containsL {s m p : List Char}
    (h1 : containsL s m = true) (h2 : containsL m p = true) : containsL s p = true := by
  obtain ⟨a, b, rfl⟩ := (containsL_iff s m).mp h1
  obtain ⟨c, d, rfl⟩ := (containsL_iff _ p).mp h2
  exact containsL_of_decomp (a := a ++ c) (b := d ++ b) (by simp)

theorem joinSepL_cons (sep x : List Char) (ys : List (List Char)) (h : ys ≠ []) :
    joinSepL sep (x :: ys) = x ++ sep ++ joinSepL sep ys := by
  cases ys with
  | nil => exact absurd rfl h
  | cons y rest => rfl

theorem joinSepL_mem (sep : List Char) (ls : List (List Char)) (x : List Char)
    (h : x ∈ ls) : ∃ a b, joinSepL sep ls = a ++ x ++ b := by
  induction ls with
  | nil => exact absurd h (List.not_mem_nil x)
  | cons y rest ih =>
    rcases List.mem_cons.mp h with rfl | hmem
    · cases rest with
      | nil => exact ⟨[], [], by simp [joinSepL]⟩
      | cons z zs => exact ⟨[], sep ++ joinSepL sep (z :: zs), by simp [joinSepL]⟩
    · obtain ⟨a, b, hab⟩ := ih hmem
      have hne : rest ≠ [] := by rintro rfl; exact absurd hmem (List.not_mem_nil x)
      exact ⟨y ++ sep ++ a, b, by rw [joinSepL_cons sep y rest hne, hab]; simp⟩

theorem joinSepL_append (sep : List Char) (u v : List (List Char)) (hv : v ≠ []) :
    joinSepL sep (u ++ v) =
      joinSepL sep u ++ (if u.isEmpty then [] else sep) ++ joinSepL sep v := by
  induction u with
  | nil => simp [joinSepL]
  | cons x u ih =>
    have hne : u ++ v ≠ [] := by
      intro hc
      exact hv (List.append_eq_nil.mp hc).2
    rw [List.cons_append, joinSepL_cons sep x (u ++ v) hne, ih]
    cases u with
    | nil =>
      simp [joinSepL]
    | cons y u2 =>
      rw [joinSepL_cons sep x (y :: u2) (by simp)]
      simp

theorem mapWithIdx_append (f : Nat → α → β) (i : Nat) (u v : List α) :
    mapWithIdx f i (u ++ v) = mapWithIdx f i u ++ mapWithIdx f (i + u.length) v := by
  induction u generalizing i with
  | nil => simp [mapWithIdx]
  | cons x u ih =>
    show f i x :: mapWithIdx f (i + 1) (u ++ v) =
      f i x :: (mapWithIdx f (i + 1) u ++ mapWithIdx f (i + (u.length + 1)) v)
    rw [ih (i + 1)]
    have harith : i + 1 + u.length = i + (u.length + 1) := by omega
    rw [harith]

theorem mem_mapWithIdx (f : Nat → α → β) (i0 : Nat) (l : List α) (x : α) (h : x ∈ l) :
    ∃ i, f i x ∈ mapWithIdx f i0 l := by
  induction l generalizing i0 with
  | nil => exact absurd h (List.not_mem_nil x)
  | cons y rest ih =>
    rcases List.mem_cons.mp h with rfl | hmem
    · exact ⟨i0, List.mem_cons_self _ _⟩
    · obtain ⟨i, hi⟩ := ih (i0 + 1) hmem
      exact ⟨i, List.mem_cons_of_mem _ hi⟩

theorem takeUntil_eq_of_no_sep (p : Char → Bool) (cs : List Char)
    (h : ∀ c ∈ cs, p c = false) : takeUntil p cs = (cs, []) := by
  induction cs with
  | nil => rfl
  | cons c rest ih =>
    unfold takeUntil
    rw [h c (List.mem_cons_self c rest)]
    simp only [Bool.false_eq_true, if_false]
    rw [ih (fun x hx => h x (List.mem_cons_of_mem c hx))]

theorem takeUntil_append (p : Char → Bool) (a : List Char) (c : Char) (b : List Char)
    (ha : ∀ x ∈ a, p x = false) (hc : p c = true) :
    takeUntil p (a ++ c :: b) = (a, c :: b) := by
  induction a with
  | nil => simp [takeUntil, hc]
  | cons x a ih =>
    rw [List.cons_append]
    simp only [takeUntil]
    rw [ha x (List.mem_cons_self x a)]
    simp only [Bool.false_eq_true, if_false]
    rw [ih (fun y hy => ha y (List.mem_cons_of_mem x hy))]

end Sogood

namespace RagChatApi

open Sogood

theorem uniquePreserveOrderAux_spec (l seen : List String) :
    List.Pairwise (fun a b => lowerS a ≠ lowerS b) (uniquePreserveOrderAux seen l) ∧
      ∀ x ∈ uniquePreserveOrderAux seen l, seen.contains (lowerS x) = false := by
  induction l generalizing seen with
  | nil => exact ⟨List.Pairwise.nil, by simp [uniquePreserveOrderAux]⟩
  | cons raw rest ih =>
    simp only [uniquePreserveOrderAux]
    by_cases h1 : (trimStr raw == "") = true
    · rw [if_pos h1]; exact ih seen
    · rw [if_neg h1]
      by_cases h2 : seen.contains (lowerS (trimStr raw)) = true
      · rw [if_pos h2]; exact ih seen
      · rw [if_neg h2]
        obtain ⟨ihp, ihm⟩ := ih (lowerS (trimStr raw) :: seen)
        constructor
        · refine List.Pairwise.cons ?_ ihp
          intro y hy
          have := ihm y hy
          rw [List.contains_cons] at this
          have hne : (lowerS y == lowerS (trimStr raw)) = false := by
            cases hq : (lowerS y == lowerS (trimStr raw)) with
            | false => rfl
            | true => rw [hq] at this; simp at this
          exact fun heq => by rw [heq] at hne; simp at hne
        · intro x hx
          rcases List.mem_cons.mp hx with rfl | hx2
          · exact Bool.eq_false_iff.mpr h2
          · have := ihm x hx2
            rw [List.contains_cons] at this
            cases hq : seen.contains (lowerS x) with
            | false => rfl
            | true => rw [hq] at this; simp at this

theorem uniquePreserveOrderAux_sublist (l seen : List String) :
    (uniquePreserveOrderAux seen l).Sublist (l.map trimStr) := by
  induction l generalizing seen with
  | nil => simp [uniquePreserveOrderAux]
  | cons raw rest ih =>
    simp only [uniquePreserveOrderAux, List.map_cons]
    by_cases h1 : (trimStr raw == "") = true
    · rw [if_pos h1]; exact (ih seen).cons _
    · rw [if_neg h1]
      by_cases h2 : seen.contains (lowerS (trimStr raw)) = true
      · rw [if_pos h2]; exact (ih seen).cons _
      · rw [if_neg h2]; exact (ih _).cons₂ _

end RagChatApi

/-- C5 counterexample: the two inputs of the claim canonicalize to different
values because `HTTP://Example.com:443/a/` has scheme `http`, whose default
port is 80, so the explicit port 443 is kept. -/
theorem canonicalize_http443_ne_counterexample :
    CompanyLib.canonicalizeCompanyUrl (some "HTTP://Example.com:443/a/") ≠
      CompanyLib.canonicalizeCompanyUrl (some "http://example.com/a") := by decide

/-- C5 (amended): with the scheme matching the default port — `HTTPS` with 443
— the two URL-like inputs canonicalize to the same value. -/
theorem canonicalize_https443_eq_amended :
    CompanyLib.canonicalizeCompanyUrl (some "HTTPS://Example.com:443/a/") =
      CompanyLib.canonicalizeCompanyUrl (some "https://example.com/a") := by decide

/-- C2 counterexample: with a JSON-style occurrence textually before a line
occurrence, extraction returns the line match first (`["bbb", "aaa"]`), not the
first-seen order of occurrence in the text (`aaa` occurs at index 7, before
`bbb` at index 16). -/
theorem extractPackIds_textual_order_counterexample :
    RagChatApi.extractPackIds "\"id\": \"aaa\"\nid: bbb" = ["bbb", "aaa"]
    ∧ Sogood.firstIndexOfL ("\"id\": \"aaa\"\nid: bbb".data) "aaa".data = some 7
    ∧ Sogood.firstIndexOfL ("\"id\": \"aaa\"\nid: bbb".data) "bbb".data = some 16 := by
  refine ⟨by decide, by decide, by decide⟩

/-- C2 (amended): identifier extraction returns the ids found on `id: <token>`
lines and in JSON-style `"id": "<token>"` occurrences, case-insensitively
deduplicated preserving first-seen order in the merged match list, in which
all line-pattern matches (in text order) precede all JSON-pattern matches (in
text order); in particular `ID: abc-1` then `ID: abc-2` yields
`["abc-1", "abc-2"]` in that order. -/
theorem extractPackIds_spec :
    RagChatApi.extractPackIds "ID: abc-1\nID: abc-2" = ["abc-1", "abc-2"]
    ∧ (∀ text : String,
        List.Pairwise (fun a b => Sogood.lowerS a ≠ Sogood.lowerS b)
          (RagChatApi.extractPackIds text))
    ∧ (∀ text : String,
        (RagChatApi.extractPackIds text).Sublist
          ((((RagChatApi.extractLineIds (RagChatApi.normalizeCompat text).data).map
              (fun l => (⟨l⟩ : String))) ++
            ((RagChatApi.extractJsonIds (RagChatApi.normalizeCompat text).data).map
              (fun l => (⟨l⟩ : String)))).map Sogood.trimStr)) := by
  refine ⟨by decide, fun text => ?_, fun text => ?_⟩
  · exact (RagChatApi.uniquePreserveOrderAux_spec _ []).1
  · exact RagChatApi.uniquePreserveOrderAux_sublist _ []

namespace RagChatApi

open Sogood

theorem mergeHistoryAux_eq_foldl (incoming out : List ChatTurn) :
    mergeHistoryAux out incoming =
      incoming.foldl
        (fun acc m => if sameTurn acc.getLast? (some m) then acc else acc ++ [m]) out := by
  induction incoming generalizing out with
  | nil => rfl
  | cons m rest ih =>
    simp only [mergeHistoryAux, List.foldl_cons]
    by_cases h : sameTurn out.getLast? (some m) = true
    · rw [if_pos h, if_pos h, ih]
    · rw [if_neg h, if_neg h, ih]

end RagChatApi

/-- C3: `mergeHistory` returns the other side when either input is empty; it
returns `incoming` unchanged when `incoming` is at least as long as `stored`;
and when `incoming` is strictly shorter it extends `stored` by exactly those
incoming entries whose (role, trimmed content) does not match the current last
entry of the accumulated list. -/
theorem mergeHistory_spec :
    (∀ l : List RagChatApi.ChatTurn,
      RagChatApi.mergeHistory [] l = l ∧ RagChatApi.mergeHistory l [] = l)
    ∧ (∀ stored incoming : List RagChatApi.ChatTurn,
        stored ≠ [] → stored.length ≤ incoming.length →
        RagChatApi.mergeHistory stored incoming = incoming)
    ∧ (∀ stored incoming : List RagChatApi.ChatTurn,
        incoming ≠ [] → incoming.length < stored.length →
        RagChatApi.mergeHistory stored incoming =
          incoming.foldl
            (fun acc m =>
              if RagChatApi.sameTurn acc.getLast? (some m) then acc else acc ++ [m])
            stored) := by
  refine ⟨fun l => ⟨rfl, ?_⟩, fun stored incoming hs hlen => ?_, fun stored incoming hi hlen => ?_⟩
  · cases l with
    | nil => rfl
    | cons x t => rfl
  · unfold RagChatApi.mergeHistory
    rw [if_neg (by simpa [List.isEmpty_iff] using hs)]
    cases incoming with
    | nil =>
      have hlen0 : stored.length = 0 := Nat.le_zero.mp (by simpa using hlen)
      exact absurd (List.length_eq_zero.mp hlen0) hs
    | cons y t =>
      rw [if_neg (by simp [List.isEmpty_iff]), if_pos hlen]
  · unfold RagChatApi.mergeHistory
    have hs : stored ≠ [] := by
      intro hc
      subst hc
      simp at hlen
    rw [if_neg (by simpa [List.isEmpty_iff] using hs)]
    rw [if_neg (by simpa [List.isEmpty_iff] using hi)]
    rw [if_neg (by omega)]
    exact RagChatApi.mergeHistoryAux_eq_foldl incoming stored

/-- C3 witness: `mergeHistory([], [A, B]) = [A, B]`, and with five stored turns
and two incoming turns whose first entry matches the stored tail, the result is
the stored history extended by the one genuinely new incoming turn. -/
theorem mergeHistory_spec_witness :
    RagChatApi.mergeHistory []
        [⟨"user", "A"⟩, ⟨"assistant", "B"⟩] = [⟨"user", "A"⟩, ⟨"assistant", "B"⟩]
    ∧ RagChatApi.mergeHistory
        [⟨"user", "1"⟩, ⟨"assistant", "2"⟩, ⟨"user", "3"⟩, ⟨"assistant", "4"⟩, ⟨"user", "5"⟩]
        [⟨"user", "5"⟩, ⟨"user", "6"⟩] =
      [⟨"user", "1"⟩, ⟨"assistant", "2"⟩, ⟨"user", "3"⟩, ⟨"assistant", "4"⟩, ⟨"user", "5"⟩,
        ⟨"user", "6"⟩] := by
  constructor
  · exact (mergeHistory_spec.1 _).1
  · rw [mergeHistory_spec.2.2 _ _ (by decide) (by decide)]
    decide

/-- C4 counterexample: with social entry `"s"` and a message list whose system
message carrying `"s"` is not first, `normalizeMessages` returns the list
unchanged, so the social entry is not the first message — refuting the
universally quantified first half of the claim. -/
theorem normalizeMessages_first_counterexample :
    RagApi.normalizeMessages "c" 0 (some "s")
        [⟨"1", "user", "x", 0⟩, ⟨"2", "system", "s", 0⟩] =
      [⟨"1", "user", "x", 0⟩, ⟨"2", "system", "s", 0⟩]
    ∧ ¬ ((RagApi.normalizeMessages "c" 0 (some "s")
          [⟨"1", "user", "x", 0⟩, ⟨"2", "system", "s", 0⟩]).head?.map
            (fun m => (m.role, Sogood.trimStr m.content)) = some ("system", "s")) := by
  refine ⟨by decide, by decide⟩

/-- C4 (amended): for a non-empty trimmed social entry, when no system message
with that trimmed content is already present the returned list starts with the
social entry tagged `system`; when such a system message is present anywhere,
the input list is returned unchanged. -/
theorem normalizeMessages_social_spec :
    ∀ (cid : String) (ts : Int) (social : String) (msgs : List RagApi.Message),
      Sogood.trimStr social ≠ "" →
      ((msgs.any (fun m =>
          m.role == "system" && Sogood.trimStr m.content == Sogood.trimStr social)) = true →
        RagApi.normalizeMessages cid ts (some social) msgs = msgs)
      ∧ ((msgs.any (fun m =>
          m.role == "system" && Sogood.trimStr m.content == Sogood.trimStr social)) = false →
        (RagApi.normalizeMessages cid ts (some social) msgs).head?.map
            (fun m => (m.role, Sogood.trimStr m.content)) =
          some ("system", Sogood.trimStr social)) := by
  intro cid ts social msgs hs
  have hbeq : (Sogood.trimStr social == "") = false := by
    exact beq_eq_false_iff_ne.mpr hs
  constructor
  · intro hany
    simp only [RagApi.normalizeMessages, hbeq, Bool.false_eq_true, if_false, hany, if_true]
  · intro hany
    simp only [RagApi.normalizeMessages, hbeq, Bool.false_eq_true, if_false, hany]
    cases msgs with
    | nil => simp [Sogood.trimStr_idem social]
    | cons first rest =>
      dsimp only
      by_cases hcond :
          (Sogood.trimStr first.content == Sogood.trimStr social && first.role != "assistant") = true
      · rw [if_pos hcond]
        have hcontent := (Bool.and_eq_true _ _ |>.mp hcond).1
        simp [beq_iff_eq.mp hcontent]
      · rw [if_neg hcond]
        simp [Sogood.trimStr_idem social]

/-- C4 witness: with social entry `"s"` and no stored messages, the normalized
list starts with the social entry tagged `system`. -/
theorem normalizeMessages_social_spec_witness :
    (RagApi.normalizeMessages "c" 0 (some "s") []).head?.map
        (fun m => (m.role, Sogood.trimStr m.content)) = some ("system", "s") := by
  have h := (normalizeMessages_social_spec "c" 0 "s" [] (by decide)).2 (by decide)
  rw [show Sogood.trimStr "s" = "s" from by decide] at h
  exact h

namespace RagApi

theorem roleOfField_tag (v : Option JsValue) (r : String) (h : roleOfField v = some r) :
    (r == "system" || r == "user" || r == "assistant") = true := by
  match v with
  | none => exact absurd h (by simp [roleOfField])
  | some .null | some (.bool _) | some (.num _) | some (.arr _) | some (.obj _) =>
    exact absurd h (by simp [roleOfField])
  | some (.str s) =>
    have hdef : roleOfField (some (.str s)) =
        if (s == "system" || s == "user" || s == "assistant") = true then some s
        else none := rfl
    rw [hdef] at h
    by_cases hc : (s == "system" || s == "user" || s == "assistant") = true
    · rw [if_pos hc] at h
      cases h
      exact hc
    · rw [if_neg hc] at h
      exact absurd h (by simp)

theorem sanitizeMessagesAux_roles (cid : String) (ts : Int) (xs : List JsValue) (n : Nat) :
    (sanitizeMessagesAux cid ts xs n).all
      (fun m => m.role == "system" || m.role == "user" || m.role == "assistant") = true := by
  induction xs generalizing n with
  | nil => rfl
  | cons m rest ih =>
    cases m with
    | obj fields =>
      simp only [sanitizeMessagesAux]
      cases hrole : roleOfField (lookupField fields "role") with
      | none => exact ih n
      | some role =>
        rw [List.all_cons]
        exact Bool.and_eq_true _ _ |>.mpr ⟨roleOfField_tag _ _ hrole, ih (n + 1)⟩
    | null => exact ih n
    | bool b => exact ih n
    | num k => exact ih n
    | str s => exact ih n
    | arr ys => exact ih n

theorem sanitizeMessagesAux_filter (cid : String) (ts : Int) (xs : List JsValue) (n : Nat) :
    sanitizeMessagesAux cid ts xs n =
      sanitizeMessagesAux cid ts (xs.filter isValidMsgElem) n := by
  induction xs generalizing n with
  | nil => rfl
  | cons m rest ih =>
    cases m with
    | obj fields =>
      simp only [sanitizeMessagesAux, List.filter_cons]
      cases hrole : roleOfField (lookupField fields "role") with
      | none =>
        have hv : isValidMsgElem (.obj fields) = false := by
          simp [isValidMsgElem, hrole]
        rw [hv]
        simp only [Bool.false_eq_true, if_false]
        exact ih n
      | some role =>
        have hv : isValidMsgElem (.obj fields) = true := by
          simp [isValidMsgElem, hrole]
        rw [hv]
        simp only [if_true]
        simp only [sanitizeMessagesAux, hrole]
        exact congrArg _ (ih (n + 1))
    | null => simpa [sanitizeMessagesAux, List.filter_cons, isValidMsgElem] using ih n
    | bool b => simpa [sanitizeMessagesAux, List.filter_cons, isValidMsgElem] using ih n
    | num k => simpa [sanitizeMessagesAux, List.filter_cons, isValidMsgElem] using ih n
    | str s => simpa [sanitizeMessagesAux, List.filter_cons, isValidMsgElem] using ih n
    | arr ys => simpa [sanitizeMessagesAux, List.filter_cons, isValidMsgElem] using ih n

end RagApi

/-- C7: message sanitization is total and shape-preserving — for every runtime
value (including strings and malformed lists) both `sanitizeMessages` and
`parseStoredMessages` (under any `JSON.parse` oracle) return a list whose
every element has role exactly `"system"`, `"user"` or `"assistant"`, and
elements with an unrecognized role or non-object shape are discarded without
affecting the rest of the output.  Totality itself is witnessed by the
functions being definable as total Lean functions over arbitrary `JsValue`s. -/
theorem sanitizeMessages_total_shape :
    ∀ (jsonParse : String → Option RagApi.JsValue) (now : Int) (v : RagApi.JsValue)
      (cid : String) (ts : Int),
      ((RagApi.sanitizeMessages v cid ts).all
        (fun m => m.role == "system" || m.role == "user" || m.role == "assistant")) = true
      ∧ ((RagApi.parseStoredMessages jsonParse now v).all
        (fun m => m.role == "system" || m.role == "user" || m.role == "assistant")) = true
      ∧ (∀ xs : List RagApi.JsValue,
          RagApi.sanitizeMessages (.arr xs) cid ts =
            RagApi.sanitizeMessages (.arr (xs.filter RagApi.isValidMsgElem)) cid ts) := by
  intro jsonParse now v cid ts
  refine ⟨?_, ?_, ?_⟩
  · cases v with
    | arr xs => exact RagApi.sanitizeMessagesAux_roles cid ts xs 0
    | null => rfl
    | bool b => rfl
    | num k => rfl
    | str s => rfl
    | obj fields => rfl
  · cases v with
    | arr xs => exact RagApi.sanitizeMessagesAux_roles "stored" now xs 0
    | str s =>
      simp only [RagApi.parseStoredMessages]
      cases jsonParse s with
      | none => rfl
      | some w =>
        cases w with
        | arr xs => exact RagApi.sanitizeMessagesAux_roles "stored" now xs 0
        | null => rfl
        | bool b => rfl
        | num k => rfl
        | str s2 => rfl
        | obj fields => rfl
    | null => rfl
    | bool b => rfl
    | num k => rfl
    | obj fields => rfl
  · intro xs
    exact RagApi.sanitizeMessagesAux_filter cid ts xs 0

namespace RagChatApi

theorem repairLoopAux_length_le (e : List String) (b : Nat) (o : Nat → Option String)
    (fuel : Nat) (st : RepairState) :
    (repairLoopAux e b o fuel st).2.length ≤ fuel := by
  induction fuel generalizing st with
  | zero => simp [repairLoopAux]
  | succ fuel ih =>
    simp only [repairLoopAux]
    by_cases h1 : (computeCoverageFromBlocks e st.blocks).missingIds.isEmpty = true
    · rw [if_pos h1]; simp
    · rw [if_neg h1]
      by_cases h2 : 2 ≤ st.stalled
      · rw [if_pos h2]; simp
      · rw [if_neg h2]
        cases o st.passes with
        | none =>
          simp only [List.length_cons]
          exact Nat.succ_le_succ (ih _)
        | some reply =>
          simp only [List.length_cons]
          exact Nat.succ_le_succ (ih _)

theorem repairLoopAux_stall_exit (e : List String) (b : Nat) (o : Nat → Option String)
    (fuel : Nat) (st : RepairState) (h : 2 ≤ st.stalled) :
    (repairLoopAux e b o fuel st).2 = [] := by
  cases fuel with
  | zero => rfl
  | succ fuel =>
    simp only [repairLoopAux]
    by_cases h1 : (computeCoverageFromBlocks e st.blocks).missingIds.isEmpty = true
    · rw [if_pos h1]
    · rw [if_neg h1, if_pos h]

end RagChatApi

/-- C1: the content-pack repair loop always terminates — it issues at most
`maxPasses` repair passes; when every pass stalls (modelled here by a provider
error on every pass, which the loop counts as stalled) it exits after exactly
two consecutive stalled passes (given `maxPasses ≥ 2`); and when exactly one
id is missing after the first completion, the first repair pass targets
exactly that id (`targetIds` is the first `batchSize` missing ids in expected
order).  The per-pass `targetIds` batches are returned by the loop model in
order. -/
theorem repairLoop_terminates_targets :
    ∀ (expectedIds : List String) (oracle : Nat → Option String)
      (blocks0 : List (String × String)) (batchSize maxPasses : Nat),
      (RagChatApi.repairLoop expectedIds batchSize maxPasses oracle blocks0).2.length ≤ maxPasses
      ∧ ((RagChatApi.computeCoverageFromBlocks expectedIds blocks0).missingIds ≠ [] →
          2 ≤ maxPasses → (∀ n, oracle n = none) →
          (RagChatApi.repairLoop expectedIds batchSize maxPasses oracle blocks0).2.length = 2)
      ∧ (∀ x : String,
          (RagChatApi.computeCoverageFromBlocks expectedIds blocks0).missingIds = [x] →
          1 ≤ batchSize → 1 ≤ maxPasses →
          (RagChatApi.repairLoop expectedIds batchSize maxPasses oracle blocks0).2.head? =
            some [x]) := by
  intro expectedIds oracle blocks0 batchSize maxPasses
  refine ⟨RagChatApi.repairLoopAux_length_le _ _ _ _ _, ?_, ?_⟩
  · intro hmiss hmax horacle
    obtain ⟨m, rfl⟩ : ∃ m, maxPasses = m + 2 := ⟨maxPasses - 2, by omega⟩
    have hne : (RagChatApi.computeCoverageFromBlocks expectedIds blocks0).missingIds.isEmpty =
        false := by
      cases hq : (RagChatApi.computeCoverageFromBlocks expectedIds blocks0).missingIds.isEmpty with
      | false => rfl
      | true => exact absurd (List.isEmpty_iff.mp hq) hmiss
    show (RagChatApi.repairLoopAux expectedIds batchSize oracle (m + 1 + 1)
        ⟨blocks0, 0, 0⟩).2.length = 2
    simp only [RagChatApi.repairLoopAux, hne, Bool.false_eq_true, if_false]
    rw [if_neg (by omega)]
    rw [horacle 0]
    simp only [RagChatApi.repairLoopAux, hne, Bool.false_eq_true, if_false]
    rw [if_neg (by omega)]
    rw [horacle 1]
    have hexit := RagChatApi.repairLoopAux_stall_exit expectedIds batchSize oracle m
      ⟨blocks0, 2, 2⟩ (Nat.le_refl 2)
    simp only [List.length_cons]
    rw [hexit]
    rfl
  · intro x hone hbatch hmax
    obtain ⟨m, rfl⟩ : ∃ m, maxPasses = m + 1 := ⟨maxPasses - 1, by omega⟩
    have hne : (RagChatApi.computeCoverageFromBlocks expectedIds blocks0).missingIds.isEmpty =
        false := by
      rw [hone]; rfl
    show (RagChatApi.repairLoopAux expectedIds batchSize oracle (m + 1)
        ⟨blocks0, 0, 0⟩).2.head? = some [x]
    simp only [RagChatApi.repairLoopAux, hne, Bool.false_eq_true, if_false]
    rw [if_neg (by omega)]
    have htake : (RagChatApi.computeCoverageFromBlocks expectedIds blocks0).missingIds.take
        batchSize = [x] := by
      rw [hone]
      obtain ⟨k, rfl⟩ : ∃ k, batchSize = k + 1 := ⟨batchSize - 1, by omega⟩
      simp
    cases oracle 0 with
    | none => simp [htake]
    | some reply => simp [htake]

/-- C1 witness: with one expected id `"a1"`, an empty initial block map, a
provider error on every repair pass, batch size 6 and 12 maximum passes, the
loop issues at most 12 passes, stops after exactly 2 stalled passes, and its
first pass targets exactly `["a1"]`. -/
theorem repairLoop_terminates_targets_witness :
    (RagChatApi.repairLoop ["a1"] 6 12 (fun _ => none) []).2.length ≤ 12
    ∧ (RagChatApi.repairLoop ["a1"] 6 12 (fun _ => none) []).2.length = 2
    ∧ (RagChatApi.repairLoop ["a1"] 6 12 (fun _ => none) []).2.head? = some ["a1"] := by
  refine ⟨(repairLoop_terminates_targets ["a1"] (fun _ => none) [] 6 12).1,
    (repairLoop_terminates_targets ["a1"] (fun _ => none) [] 6 12).2.1 (by decide) (by decide)
      (fun n => rfl),
    (repairLoop_terminates_targets ["a1"] (fun _ => none) [] 6 12).2.2 "a1" (by decide)
      (by decide) (by decide)⟩

namespace Sogood

theorem trimEndL_length_le (cs : List Char) : (trimEndL cs).length ≤ cs.length := by
  unfold trimEndL
  rw [List.length_reverse]
  calc (cs.reverse.dropWhile jsWs).length ≤ cs.reverse.length :=
        (List.dropWhile_suffix jsWs).sublist.length_le
    _ = cs.length := List.length_reverse cs

end Sogood

/-- C9: snippet truncation is asymmetric — the legacy single-conversation chat
endpoint truncates every derived snippet body longer than 4000 characters to
4000 characters plus an ellipsis (so bodies never exceed 4001 characters),
while the multi-row chat endpoint passes every derived snippet body through
unchanged, and only the content excerpt of each per-row index line is
compacted to at most 140 characters. -/
theorem snippet_truncation_asymmetry :
    (∀ (rows : List RagChatApi.RagRow) (s : ChatApi.ChatSnippet),
      s ∈ ChatApi.toSnippets rows →
      s.content.length ≤ 4001
      ∧ ∃ r ∈ rows,
          (Sogood.trimStr (r.context.getD (r.social_entry.getD ""))).length ≤ 4000 ∧
            s.content = Sogood.trimStr (r.context.getD (r.social_entry.getD ""))
          ∨ 4000 < (Sogood.trimStr (r.context.getD (r.social_entry.getD ""))).length ∧
            s.content =
              (⟨(Sogood.trimStr (r.context.getD (r.social_entry.getD ""))).data.take 4000 ++
                ['…']⟩ : String))
    ∧ (∀ (rows : List RagChatApi.RagRow) (s : RagChatApi.PromptSnippet),
      s ∈ RagChatApi.toSnippets rows →
      ∃ r ∈ rows, s.content = Sogood.trimStr (r.context.getD (r.social_entry.getD "")))
    ∧ (∀ text : String, (RagChatApi.compact text 140).length ≤ 140) := by
  refine ⟨fun rows s hs => ?_, fun rows s hs => ?_, fun text => ?_⟩
  · unfold ChatApi.toSnippets at hs
    obtain ⟨t, ht, rfl⟩ := List.mem_map.mp hs
    obtain ⟨htmem, htpos⟩ := List.mem_filter.mp ht
    obtain ⟨r, hr, rfl⟩ := List.mem_map.mp htmem
    dsimp only
    by_cases hlen : (Sogood.trimStr (r.context.getD (r.social_entry.getD ""))).length > 4000
    · rw [if_pos hlen]
      refine ⟨?_, r, hr, Or.inr ⟨hlen, rfl⟩⟩
      show ((Sogood.trimStr (r.context.getD (r.social_entry.getD ""))).data.take 4000 ++
        ['…']).length ≤ 4001
      rw [List.length_append]
      have h2 := List.length_take_le 4000
        (Sogood.trimStr (r.context.getD (r.social_entry.getD ""))).data
      simp only [List.length_cons, List.length_nil]
      omega
    · rw [if_neg hlen]
      exact ⟨by omega, r, hr, Or.inl ⟨by omega, rfl⟩⟩
  · unfold RagChatApi.toSnippets at hs
    obtain ⟨hmem, hpos⟩ := List.mem_filter.mp hs
    obtain ⟨r, hr, rfl⟩ := List.mem_map.mp hmem
    exact ⟨r, hr, rfl⟩
  · show (if (Sogood.trimL (Sogood.collapseWs text.data)).length ≤ 140 then
      (⟨Sogood.trimL (Sogood.collapseWs text.data)⟩ : String) else
      (⟨Sogood.trimEndL ((Sogood.trimL (Sogood.collapseWs text.data)).take (140 - 3)) ++
        ['.', '.', '.']⟩ : String)).length ≤ 140
    by_cases h : (Sogood.trimL (Sogood.collapseWs text.data)).length ≤ 140
    · rw [if_pos h]
      exact h
    · rw [if_neg h]
      show (Sogood.trimEndL ((Sogood.trimL (Sogood.collapseWs text.data)).take (140 - 3)) ++
        ['.', '.', '.']).length ≤ 140
      rw [List.length_append]
      have h1 := Sogood.trimEndL_length_le
        ((Sogood.trimL (Sogood.collapseWs text.data)).take (140 - 3))
      have h2 := List.length_take_le (140 - 3)
        (Sogood.trimL (Sogood.collapseWs text.data))
      simp only [List.length_cons, List.length_nil]
      omega

/-- C9 witness: a concrete short row passes through both endpoints' snippet
builders untruncated, and a concrete index excerpt satisfies the 140-character
bound. -/
theorem snippet_truncation_asymmetry_witness :
    ((⟨none, "hello"⟩ : ChatApi.ChatSnippet).content.length ≤ 4001
      ∧ ∃ r ∈ [(⟨"r1", none, some " hello ", none, "2024-01-01"⟩ : RagChatApi.RagRow)],
          (Sogood.trimStr (r.context.getD (r.social_entry.getD ""))).length ≤ 4000 ∧
            (⟨none, "hello"⟩ : ChatApi.ChatSnippet).content =
              Sogood.trimStr (r.context.getD (r.social_entry.getD ""))
          ∨ 4000 < (Sogood.trimStr (r.context.getD (r.social_entry.getD ""))).length ∧
            (⟨none, "hello"⟩ : ChatApi.ChatSnippet).content =
              (⟨(Sogood.trimStr (r.context.getD (r.social_entry.getD ""))).data.take 4000 ++
                ['…']⟩ : String))
    ∧ (∃ r ∈ [(⟨"r1", none, some " hello ", none, "2024-01-01"⟩ : RagChatApi.RagRow)],
        (⟨"r1", none, "hello", "2024-01-01"⟩ : RagChatApi.PromptSnippet).content =
          Sogood.trimStr (r.context.getD (r.social_entry.getD "")))
    ∧ (RagChatApi.compact "abc" 140).length ≤ 140 := by
  refine ⟨snippet_truncation_asymmetry.1 _ _ (by decide),
    snippet_truncation_asymmetry.2.1 _ _ (by decide),
    snippet_truncation_asymmetry.2.2 "abc"⟩

namespace Sogood

theorem contains_of_mem_joinSep (sep : String) (parts : List String) (x : String)
    (hx : x ∈ parts) : containsL (joinSep sep parts).data x.data = true := by
  obtain ⟨A, B, h⟩ := joinSepL_mem sep.data (parts.map String.data) x.data
    (List.mem_map.mpr ⟨x, hx, rfl⟩)
  exact containsL_of_decomp h

end Sogood

/-- C8: for every provider error matching "credit balance is too low"
(case-insensitively) and any loaded results/contexts snippet lists, the
fallback reply contains the model-unreachable disclaimer, the add-credits
call-to-action, and the trimmed title of every loaded snippet that has a
non-empty title. -/
theorem fallback_low_credit_reply :
    ∀ (a : RagChatApi.FallbackArgs),
      Sogood.containsL (Sogood.lowerL a.providerError.data)
          ("credit balance is too low".data) = true →
      Sogood.containsL (RagChatApi.buildFallbackReply a).data
          ("I could not reach the configured language model, so this is a fallback response from stored data.".data) = true
      ∧ Sogood.containsL (RagChatApi.buildFallbackReply a).data
          ("Add Anthropic credits and retry to restore full AI responses.".data) = true
      ∧ ∀ s ∈ a.results ++ a.contexts, ∀ t, s.title = some t →
          Sogood.trimStr t ≠ "" →
          Sogood.containsL (RagChatApi.buildFallbackReply a).data
            (Sogood.trimStr t).data = true := by
  intro a hlow
  have hR : RagChatApi.buildFallbackReply a =
      Sogood.joinSep "\n"
        (["I could not reach the configured language model, so this is a fallback response from stored data."]
         ++ ["Anthropic API credits are currently exhausted."]
         ++ ["Conversation: " ++ a.title]
         ++ (match a.companyUrl with
             | some c => if c == "" then [] else ["Company URL: " ++ c]
             | none => [])
         ++ (match a.latestUserMessage with
             | some l => if l == "" then []
               else ["Latest request: " ++ RagChatApi.compactSnippet l 180]
             | none => [])
         ++ ["", "Relevant data:",
             if (a.results ++ a.contexts).isEmpty then
               "No stored results/context were found for this conversation."
             else
               Sogood.joinSep "\n\n"
                 (Sogood.mapWithIdx
                   (fun i s =>
                     RagChatApi.fallbackHeading i s ++ "\n" ++
                       RagChatApi.compactSnippet s.content 320)
                   0 (a.results ++ a.contexts))]
         ++ ["", "Add Anthropic credits and retry to restore full AI responses."]) := by
    unfold RagChatApi.buildFallbackReply
    rw [hlow]
    rfl
  rw [hR]
  refine ⟨Sogood.contains_of_mem_joinSep _ _ _ (by simp),
    Sogood.contains_of_mem_joinSep _ _ _ (by simp), ?_⟩
  intro s hs t ht htt
  have hne : (a.results ++ a.contexts).isEmpty = false := by
    cases hq : (a.results ++ a.contexts).isEmpty with
    | false => rfl
    | true =>
      rw [List.isEmpty_iff.mp hq] at hs
      exact absurd hs (List.not_mem_nil s)
  obtain ⟨i, hib⟩ := Sogood.mem_mapWithIdx
    (fun i s => RagChatApi.fallbackHeading i s ++ "\n" ++
      RagChatApi.compactSnippet s.content 320) 0 (a.results ++ a.contexts) s hs
  have hh : RagChatApi.fallbackHeading i s =
      Sogood.natReprL (i + 1) ++ ". " ++ Sogood.trimStr t := by
    unfold RagChatApi.fallbackHeading
    rw [ht]
    dsimp only
    rw [if_neg (by simp [beq_eq_false_iff_ne.mpr htt])]
  have hblock : Sogood.containsL
      ((RagChatApi.fallbackHeading i s ++ "\n" ++
        RagChatApi.compactSnippet s.content 320)).data (Sogood.trimStr t).data = true := by
    refine Sogood.containsL_of_decomp (a := (Sogood.natReprL (i + 1) ++ ". ").data)
      (b := ("\n" ++ RagChatApi.compactSnippet s.content 320).data) ?_
    rw [hh]
    simp [String.data_append, List.append_assoc]
  have hSNB : Sogood.containsL
      ((if (a.results ++ a.contexts).isEmpty then
          "No stored results/context were found for this conversation."
        else
          Sogood.joinSep "\n\n"
            (Sogood.mapWithIdx
              (fun i s =>
                RagChatApi.fallbackHeading i s ++ "\n" ++
                  RagChatApi.compactSnippet s.content 320)
              0 (a.results ++ a.contexts))) : String).data
      ((RagChatApi.fallbackHeading i s ++ "\n" ++
        RagChatApi.compactSnippet s.content 320)).data = true := by
    rw [hne]
    simp only [Bool.false_eq_true, if_false]
    exact Sogood.contains_of_mem_joinSep _ _ _ hib
  exact Sogood.containsL_of_containsL
    (Sogood.containsL_of_containsL (Sogood.contains_of_mem_joinSep "\n" _ _ (by simp)) hSNB)
    hblock

/-- C8 witness: a concrete low-credit provider error with one titled snippet —
the fallback reply contains the disclaimer, the add-credits call-to-action and
the snippet's title. -/
theorem fallback_low_credit_reply_witness :
    Sogood.containsL
        (RagChatApi.buildFallbackReply
          ⟨"Your credit balance is too low.", some "https://x.com", "T", some "do it",
            [⟨"r1", some "Title1", "body", "2024-01-01"⟩], []⟩).data
        ("I could not reach the configured language model, so this is a fallback response from stored data.".data) = true
    ∧ Sogood.containsL
        (RagChatApi.buildFallbackReply
          ⟨"Your credit balance is too low.", some "https://x.com", "T", some "do it",
            [⟨"r1", some "Title1", "body", "2024-01-01"⟩], []⟩).data
        ("Add Anthropic credits and retry to restore full AI responses.".data) = true
    ∧ Sogood.containsL
        (RagChatApi.buildFallbackReply
          ⟨"Your credit balance is too low.", some "https://x.com", "T", some "do it",
            [⟨"r1", some "Title1", "body", "2024-01-01"⟩], []⟩).data
        (Sogood.trimStr "Title1").data = true := by
  have h := fallback_low_credit_reply
    ⟨"Your credit balance is too low.", some "https://x.com", "T", some "do it",
      [⟨"r1", some "Title1", "body", "2024-01-01"⟩], []⟩ (by decide)
  exact ⟨h.1, h.2.1,
    h.2.2 ⟨"r1", some "Title1", "body", "2024-01-01"⟩ (by decide) "Title1" rfl (by decide)⟩

namespace Sogood

theorem dropWhile_append_ex (p : α → Bool) (a r : List α) (h : ∃ c ∈ a, p c = false) :
    (a ++ r).dropWhile p = a.dropWhile p ++ r := by
  induction a with
  | nil =>
    obtain ⟨c, hc, _⟩ := h
    exact absurd hc (List.not_mem_nil c)
  | cons x a ih =>
    rw [List.cons_append, List.dropWhile_cons, List.dropWhile_cons]
    by_cases hx : p x = true
    · rw [if_pos hx, if_pos hx]
      apply ih
      obtain ⟨c, hc, hcf⟩ := h
      rcases List.mem_cons.mp hc with rfl | hc2
      · rw [hx] at hcf; exact absurd hcf (by simp)
      · exact ⟨c, hc2, hcf⟩
    · rw [if_neg hx, if_neg hx, List.cons_append]

theorem dropWhile_append_all (p : α → Bool) (a r : List α) (h : ∀ c ∈ a, p c = true) :
    (a ++ r).dropWhile p = r.dropWhile p := by
  induction a with
  | nil => rfl
  | cons x a ih =>
    rw [List.cons_append, List.dropWhile_cons, if_pos (h x (List.mem_cons_self x a))]
    exact ih (fun c hc => h c (List.mem_cons_of_mem x hc))

theorem trimL_decomp_mid (a p b : List Char)
    (ha : ∃ c ∈ a, jsWs c = false) (hb : ∃ c ∈ b, jsWs c = false) :
    ∃ a2 b2, trimL (a ++ p ++ b) = a2 ++ p ++ b2 := by
  obtain ⟨cb, hcb, hcbf⟩ := hb
  unfold trimL
  rw [List.append_assoc, dropWhile_append_ex jsWs a (p ++ b) ha, ← List.append_assoc]
  rw [List.reverse_append]
  rw [dropWhile_append_ex jsWs b.reverse ((a.dropWhile jsWs ++ p).reverse)
    ⟨cb, List.mem_reverse.mpr hcb, hcbf⟩]
  rw [List.reverse_append, List.reverse_reverse]
  exact ⟨a.dropWhile jsWs, (b.reverse.dropWhile jsWs).reverse, rfl⟩

theorem trimL_decomp_endws (a p b : List Char)
    (ha : ∃ c ∈ a, jsWs c = false) (hpne : p ≠ [])
    (hpl : ∀ x, p.getLast? = some x → jsWs x = false)
    (hb : ∀ c ∈ b, jsWs c = true) :
    ∃ a2, trimL (a ++ p ++ b) = a2 ++ p := by
  unfold trimL
  rw [List.append_assoc, dropWhile_append_ex jsWs a (p ++ b) ha, ← List.append_assoc]
  rw [List.reverse_append]
  rw [dropWhile_append_all jsWs b.reverse _ (fun c hc => hb c (List.mem_reverse.mp hc))]
  rw [dropWhile_eq_self_of_head jsWs ((a.dropWhile jsWs ++ p).reverse) (by
    intro x hx
    rw [← List.getLast?_eq_head?_reverse, List.getLast?_append] at hx
    cases hp : p.getLast? with
    | none => exact absurd (List.getLast?_eq_none_iff.mp hp) hpne
    | some y =>
      rw [hp] at hx
      cases hx
      exact hpl x hp)]
  rw [List.reverse_reverse]
  exact ⟨a.dropWhile jsWs, rfl⟩

theorem trimL_decomp_endne (a p b : List Char)
    (ha : ∃ c ∈ a, jsWs c = false) (hpne : p ≠ [])
    (hpl : ∀ x, p.getLast? = some x → jsWs x = false) :
    ∃ a2 b2, trimL (a ++ p ++ b) = a2 ++ p ++ b2 := by
  by_cases hb : ∃ c ∈ b, jsWs c = false
  · exact trimL_decomp_mid a p b ha hb
  · obtain ⟨a2, h2⟩ := trimL_decomp_endws a p b ha hpne hpl (by
      intro c hc
      cases hq : jsWs c with
      | true => rfl
      | false => exact absurd ⟨c, hc, hq⟩ hb)
    exact ⟨a2, [], by rw [h2, List.append_nil]⟩

theorem getLast?_trimL_not_ws (cs : List Char) (x : Char)
    (h : (trimL cs).getLast? = some x) : jsWs x = false := by
  rw [List.getLast?_eq_head?_reverse] at h
  unfold trimL at h
  rw [List.reverse_reverse] at h
  exact head?_dropWhile_false jsWs _ x h

theorem joinSepL_head_decomp (sep x : List Char) (xs : List (List Char)) :
    ∃ r, joinSepL sep (x :: xs) = x ++ r := by
  cases xs with
  | nil => exact ⟨[], by simp [joinSepL]⟩
  | cons y t => exact ⟨sep ++ joinSepL sep (y :: t), by simp [joinSepL, List.append_assoc]⟩

theorem joinSepL_split (sep : List Char) (P R : List (List Char)) (x : List Char)
    (hP : P ≠ []) (hR : R ≠ []) :
    joinSepL sep (P ++ x :: R) = (joinSepL sep P ++ sep) ++ x ++ (sep ++ joinSepL sep R) := by
  rw [joinSepL_append sep P (x :: R) (by simp)]
  rw [joinSepL_cons sep x R hR]
  rw [if_neg (by simpa [List.isEmpty_iff] using hP)]
  simp [List.append_assoc]

end Sogood

/-- C10: whenever the latest user message (lower-cased) contains "all" or
"every" together with one of the trigger phrases, the multi-row chat endpoint
short-circuits to the deterministic social-entry listing instead of the model
flow, and for every results row with a non-empty trimmed social entry the
listing contains its numbered heading, its `id:` line, its `created_at:` line,
and the social-entry text itself. -/
theorem allSocialEntries_shortcut :
    ∀ (q : String) (rows : List RagChatApi.RagRow),
      (Sogood.includesStr (Sogood.lowerS q) "all" = true ∨
        Sogood.includesStr (Sogood.lowerS q) "every" = true) →
      (Sogood.includesStr (Sogood.lowerS q) "social entry" = true ∨
        Sogood.includesStr (Sogood.lowerS q) "social entries" = true ∨
        Sogood.includesStr (Sogood.lowerS q) "entries from supabase" = true ∨
        Sogood.includesStr (Sogood.lowerS q) "entries in supabase" = true) →
      RagChatApi.routeAfterMerge (some q) rows =
        RagChatApi.PostRouteOutcome.socialListing (RagChatApi.buildAllSocialEntriesReply rows)
      ∧ ∀ (i : Nat) (h : i < (RagChatApi.socialEntryItems rows).length),
          Sogood.containsL (RagChatApi.buildAllSocialEntriesReply rows).data
            ("## " ++ Sogood.natReprL (i + 1) ++ ". " ++
              ((RagChatApi.socialEntryItems rows).get ⟨i, h⟩).title).data = true
          ∧ Sogood.containsL (RagChatApi.buildAllSocialEntriesReply rows).data
            ("id: " ++ ((RagChatApi.socialEntryItems rows).get ⟨i, h⟩).id).data = true
          ∧ Sogood.containsL (RagChatApi.buildAllSocialEntriesReply rows).data
            ("created_at: " ++ ((RagChatApi.socialEntryItems rows).get ⟨i, h⟩).createdAt).data =
              true
          ∧ Sogood.containsL (RagChatApi.buildAllSocialEntriesReply rows).data
            ((RagChatApi.socialEntryItems rows).get ⟨i, h⟩).socialEntry.data = true := by
  intro q rows h1 h2
  have hqne : (q == "") = false := by
    cases hq0 : (q == "") with
    | false => rfl
    | true =>
      have hq : q = "" := beq_iff_eq.mp hq0
      subst hq
      rcases h1 with h | h <;> exact absurd h (by decide)
  constructor
  · have hwants : RagChatApi.wantsAllSocialEntries (some q) = true := by
      unfold RagChatApi.wantsAllSocialEntries
      dsimp only
      rw [hqne]
      simp only [Bool.false_eq_true, if_false]
      rw [Bool.and_eq_true]
      constructor
      · rcases h1 with h | h <;> simp [h]
      · rcases h2 with h | h | h | h <;> simp [h]
    unfold RagChatApi.routeAfterMerge
    rw [if_pos hwants]
  · intro i h
    set entries : List RagChatApi.SocialEntryItem := RagChatApi.socialEntryItems rows
      with hentries
    set e : RagChatApi.SocialEntryItem := entries.get ⟨i, h⟩ with he
    have hne : entries.isEmpty = false := by
      cases hq : entries.isEmpty with
      | false => rfl
      | true => rw [List.isEmpty_iff.mp hq] at h; simp at h
    have hreply : (RagChatApi.buildAllSocialEntriesReply rows).data =
        Sogood.trimL (Sogood.joinSepL "\n".data
          ((("Total social entries: " ++ Sogood.natReprL entries.length) :: "" ::
            (Sogood.mapWithIdx RagChatApi.entryLines 0 entries).flatten).map String.data)) := by
      unfold RagChatApi.buildAllSocialEntriesReply
      rw [← hentries]
      rw [if_neg (by simp [hne])]
      rfl
    have hsplit : entries = entries.take i ++ e :: entries.drop (i + 1) := by
      conv_lhs => rw [← List.take_append_drop i entries]
      congr 1
      rw [he, List.get_eq_getElem]
      exact (List.getElem_cons_drop entries i h).symm
    have hlen : (entries.take i).length = i := by
      rw [List.length_take]
      omega
    have hmap : Sogood.mapWithIdx RagChatApi.entryLines 0 entries =
        Sogood.mapWithIdx RagChatApi.entryLines 0 (entries.take i) ++
          RagChatApi.entryLines i e ::
            Sogood.mapWithIdx RagChatApi.entryLines (i + 1) (entries.drop (i + 1)) := by
      conv_lhs => rw [hsplit]
      rw [Sogood.mapWithIdx_append, hlen, Nat.zero_add]
      rfl
    have key : ∀ (P1 R : List String) (x : String),
        (("Total social entries: " ++ Sogood.natReprL entries.length) :: "" ::
            (Sogood.mapWithIdx RagChatApi.entryLines 0 entries).flatten) =
          (("Total social entries: " ++ Sogood.natReprL entries.length) :: P1) ++ x :: R →
        R ≠ [] →
        ((∃ c ∈ "\n".data ++ Sogood.joinSepL "\n".data (R.map String.data),
            Sogood.jsWs c = false) ∨
          (x.data ≠ [] ∧ ∀ y, x.data.getLast? = some y → Sogood.jsWs y = false)) →
        Sogood.containsL (RagChatApi.buildAllSocialEntriesReply rows).data x.data = true := by
      intro P1 R x hdecomp hRne hbcond
      rw [hreply, hdecomp]
      rw [List.map_append, List.map_cons, List.map_cons]
      rw [Sogood.joinSepL_split "\n".data _ _ _ (by simp) (by simpa using hRne)]
      have haex : ∃ c ∈ Sogood.joinSepL "\n".data
          (("Total social entries: " ++ Sogood.natReprL entries.length).data ::
            P1.map String.data) ++ "\n".data, Sogood.jsWs c = false := by
        obtain ⟨r, hr⟩ := Sogood.joinSepL_head_decomp "\n".data
          ("Total social entries: " ++ Sogood.natReprL entries.length).data
          (P1.map String.data)
        rw [hr]
        refine ⟨'T', ?_, by decide⟩
        apply List.mem_append_left
        apply List.mem_append_left
        rw [String.data_append]
        exact List.mem_append_left _ (by decide)
      rcases hbcond with hbex | ⟨hxne, hxlast⟩
      · obtain ⟨a2, b2, hdec⟩ := Sogood.trimL_decomp_mid _ x.data _ haex hbex
        rw [hdec]
        exact Sogood.containsL_of_decomp rfl
      · obtain ⟨a2, b2, hdec⟩ := Sogood.trimL_decomp_endne _ x.data _ haex hxne hxlast
        rw [hdec]
        exact Sogood.containsL_of_decomp rfl
    have hflatdecomp : ∀ (before : List String) (x : String) (R0 : List String),
        RagChatApi.entryLines i e = before ++ x :: R0 →
        (("Total social entries: " ++ Sogood.natReprL entries.length) :: "" ::
            (Sogood.mapWithIdx RagChatApi.entryLines 0 entries).flatten) =
          (("Total social entries: " ++ Sogood.natReprL entries.length) ::
            ("" :: ((Sogood.mapWithIdx RagChatApi.entryLines 0 (entries.take i)).flatten ++
              before))) ++ x ::
            (R0 ++
              (Sogood.mapWithIdx RagChatApi.entryLines (i + 1)
                (entries.drop (i + 1))).flatten) := by
      intro before x R0 hba
      rw [hmap, List.flatten_append, List.flatten_cons, hba]
      simp [List.append_assoc]
    have hmem_e : e ∈ entries := by
      rw [he]
      exact entries.get_mem i h
    have hmem_e2 : e ∈ (rows.map (fun r =>
        ({ id := r.id,
           title := (fun t => if t == "" then "(untitled)" else t)
             (Sogood.trimStr (r.title.getD "")),
           createdAt := r.created_at,
           socialEntry := Sogood.trimStr (r.social_entry.getD "") } :
             RagChatApi.SocialEntryItem))).filter
        (fun e => e.socialEntry.length > 0) := by
      have hx := hentries ▸ hmem_e
      rw [RagChatApi.socialEntryItems] at hx
      exact hx
    have hsoc_pos : e.socialEntry.length > 0 :=
      of_decide_eq_true (List.mem_filter.mp hmem_e2).2
    obtain ⟨r0, hr0, hre⟩ := List.mem_map.mp (List.mem_filter.mp hmem_e2).1
    refine ⟨?_, ?_, ?_, ?_⟩
    · refine key _ _ _
        (hflatdecomp []
          ("## " ++ Sogood.natReprL (i + 1) ++ ". " ++ e.title)
          ["id: " ++ e.id, "created_at: " ++ e.createdAt, "social_entry:", e.socialEntry, ""]
          rfl)
        (by simp) (Or.inl ?_)
      simp only [List.map_append, List.map_cons, List.map_nil, List.cons_append,
        List.nil_append]
      obtain ⟨r, hr⟩ := Sogood.joinSepL_head_decomp "\n".data ("id: " ++ e.id).data _
      rw [hr]
      refine ⟨'i', ?_, by decide⟩
      refine List.mem_cons_of_mem _ (List.mem_append_left _ ?_)
      rw [String.data_append]
      exact List.mem_append_left _ (by decide)
    · refine key _ _ _
        (hflatdecomp ["## " ++ Sogood.natReprL (i + 1) ++ ". " ++ e.title]
          ("id: " ++ e.id)
          ["created_at: " ++ e.createdAt, "social_entry:", e.socialEntry, ""]
          rfl)
        (by simp) (Or.inl ?_)
      simp only [List.map_append, List.map_cons, List.map_nil, List.cons_append,
        List.nil_append]
      obtain ⟨r, hr⟩ := Sogood.joinSepL_head_decomp "\n".data
        ("created_at: " ++ e.createdAt).data _
      rw [hr]
      refine ⟨'c', ?_, by decide⟩
      refine List.mem_cons_of_mem _ (List.mem_append_left _ ?_)
      rw [String.data_append]
      exact List.mem_append_left _ (by decide)
    · refine key _ _ _
        (hflatdecomp ["## " ++ Sogood.natReprL (i + 1) ++ ". " ++ e.title, "id: " ++ e.id]
          ("created_at: " ++ e.createdAt)
          ["social_entry:", e.socialEntry, ""]
          rfl)
        (by simp) (Or.inl ?_)
      simp only [List.map_append, List.map_cons, List.map_nil, List.cons_append,
        List.nil_append]
      obtain ⟨r, hr⟩ := Sogood.joinSepL_head_decomp "\n".data ("social_entry:").data _
      rw [hr]
      refine ⟨'s', ?_, by decide⟩
      exact List.mem_cons_of_mem _ (List.mem_append_left _ (by decide))
    · refine key _ _ _
        (hflatdecomp
          ["## " ++ Sogood.natReprL (i + 1) ++ ". " ++ e.title, "id: " ++ e.id,
            "created_at: " ++ e.createdAt, "social_entry:"]
          e.socialEntry
          [""]
          rfl)
        (by simp) (Or.inr ⟨?_, ?_⟩)
      · intro hc
        have hz : e.socialEntry.length = 0 := by
          show e.socialEntry.data.length = 0
          rw [hc]
          rfl
        omega
      · intro y hy
        have hsoc : e.socialEntry = Sogood.trimStr (r0.social_entry.getD "") := by
          rw [← hre]
        rw [hsoc] at hy
        exact Sogood.getLast?_trimL_not_ws _ y hy

/-- C10 witness: the message "show all social entries" short-circuits to the
deterministic listing for a one-row store, and that listing contains the row's
id line and social-entry text. -/
theorem allSocialEntries_shortcut_witness :
    RagChatApi.routeAfterMerge (some "show all social entries")
        [⟨"r1", some "T", some "hello", none, "2024-01-01"⟩] =
      RagChatApi.PostRouteOutcome.socialListing
        (RagChatApi.buildAllSocialEntriesReply
          [⟨"r1", some "T", some "hello", none, "2024-01-01"⟩])
    ∧ Sogood.containsL
        (RagChatApi.buildAllSocialEntriesReply
          [⟨"r1", some "T", some "hello", none, "2024-01-01"⟩]).data
        "id: r1".data = true
    ∧ Sogood.containsL
        (RagChatApi.buildAllSocialEntriesReply
          [⟨"r1", some "T", some "hello", none, "2024-01-01"⟩]).data
        "hello".data = true := by
  have h := allSocialEntries_shortcut "show all social entries"
    [⟨"r1", some "T", some "hello", none, "2024-01-01"⟩]
    (Or.inl (by decide)) (Or.inr (Or.inl (by decide)))
  refine ⟨h.1, ?_, ?_⟩
  · have h2 := (h.2 0 (by decide)).2.1
    rw [show ("id: " ++
        ((RagChatApi.socialEntryItems
          [⟨"r1", some "T", some "hello", none, "2024-01-01"⟩]).get
            ⟨0, by decide⟩).id) = "id: r1" from by decide] at h2
    exact h2
  · have h2 := (h.2 0 (by decide)).2.2.2
    rw [show ((RagChatApi.socialEntryItems
        [⟨"r1", some "T", some "hello", none, "2024-01-01"⟩]).get
          ⟨0, by decide⟩).socialEntry = "hello" from by decide] at h2
    exact h2

namespace Sogood

theorem toNat_ofNat_valid (n : Nat) (h : n < 55296) : (Char.ofNat n).toNat = n := by
  have hv : n.isValidChar := Or.inl h
  rw [Char.ofNat, dif_pos hv]
  have hlt : n < UInt32.size := by
    have hsz : UInt32.size = 4294967296 := rfl
    omega
  simp [Char.ofNatAux, Char.toNat, UInt32.toNat, BitVec.toNat_ofNat, Nat.mod_eq_of_lt hlt]

theorem jsToLower_toNat (c : Char) :
    (jsToLower c).toNat =
      if 65 ≤ c.toNat ∧ c.toNat ≤ 90 then c.toNat + 32 else c.toNat := by
  unfold jsToLower
  by_cases h : 65 ≤ c.toNat ∧ c.toNat ≤ 90
  · rw [if_pos h, if_pos h, toNat_ofNat_valid _ (by omega)]
  · rw [if_neg h, if_neg h]

theorem char_beq_false_of_toNat_ne {c d : Char} (h : c.toNat ≠ d.toNat) : (c == d) = false := by
  cases hq : c == d with
  | false => rfl
  | true => exact absurd (congrArg Char.toNat (beq_iff_eq.mp hq)) h

theorem jsWs_eq_false_of_toNat {c : Char}
    (h : c.toNat ≠ 32 ∧ c.toNat ≠ 9 ∧ c.toNat ≠ 10 ∧ c.toNat ≠ 13) : jsWs c = false := by
  have h1 := char_beq_false_of_toNat_ne (d := ' ') (by exact h.1)
  have h2 := char_beq_false_of_toNat_ne (d := '\t') (by exact h.2.1)
  have h3 := char_beq_false_of_toNat_ne (d := '\n') (by exact h.2.2.1)
  have h4 := char_beq_false_of_toNat_ne (d := '\r') (by exact h.2.2.2)
  simp [jsWs, h1, h2, h3, h4]

theorem isAuthEnd_of_toNat {c : Char}
    (h : c.toNat ≠ 47 ∧ c.toNat ≠ 63 ∧ c.toNat ≠ 35) :
    CompanyLib.isAuthEnd c = false := by
  have h1 := char_beq_false_of_toNat_ne (d := '/') (by exact h.1)
  have h2 := char_beq_false_of_toNat_ne (d := '?') (by exact h.2.1)
  have h3 := char_beq_false_of_toNat_ne (d := '#') (by exact h.2.2)
  simp [CompanyLib.isAuthEnd, h1, h2, h3]

theorem jsToLower_eq_self_or_range (c : Char) :
    jsToLower c = c ∨ (97 ≤ (jsToLower c).toNat ∧ (jsToLower c).toNat ≤ 122) := by
  by_cases h : 65 ≤ c.toNat ∧ c.toNat ≤ 90
  · right
    rw [jsToLower_toNat, if_pos h]
    omega
  · left
    unfold jsToLower
    rw [if_neg h]

theorem jsToLower_idem (c : Char) : jsToLower (jsToLower c) = jsToLower c := by
  rcases jsToLower_eq_self_or_range c with h | h
  · simp only [h]
  · exact if_neg (by omega : ¬ (65 ≤ (jsToLower c).toNat ∧ (jsToLower c).toNat ≤ 90))

theorem lowerL_idem (l : List Char) : lowerL (lowerL l) = lowerL l := by
  unfold lowerL
  rw [List.map_map]
  exact List.map_congr_left (fun c _ => jsToLower_idem c)

theorem jsWs_jsToLower {c : Char} (h : jsWs c = false) : jsWs (jsToLower c) = false := by
  rcases jsToLower_eq_self_or_range c with h2 | h2
  · rwa [h2]
  · exact jsWs_eq_false_of_toNat (by omega)

theorem isAuthEnd_jsToLower {c : Char} (h : CompanyLib.isAuthEnd c = false) :
    CompanyLib.isAuthEnd (jsToLower c) = false := by
  rcases jsToLower_eq_self_or_range c with h2 | h2
  · rwa [h2]
  · exact isAuthEnd_of_toNat (by omega)

theorem colon_jsToLower {c : Char} (h : (c == ':') = false) :
    (jsToLower c == ':') = false := by
  rcases jsToLower_eq_self_or_range c with h2 | h2
  · rwa [h2]
  · exact char_beq_false_of_toNat_ne (by
      have : (':').toNat = 58 := rfl
      omega)

theorem natDigitsAux_shift :
    ∀ fuel n acc, n < fuel →
      natDigitsAux fuel n acc = natDigitsAux (n + 1) n [] ++ acc := by
  intro fuel
  induction fuel using Nat.strong_induction_on with
  | _ fuel ih =>
    intro n acc hlt
    match fuel, hlt with
    | f + 1, hlt =>
      by_cases h10 : n < 10
      · simp only [natDigitsAux, if_pos h10]
        rfl
      · simp only [natDigitsAux, if_neg h10]
        have hdiv : n / 10 < n := Nat.div_lt_self (by omega) (by omega)
        rw [ih (f) (by omega) (n / 10) _ (by omega)]
        rw [ih n (by omega) (n / 10) _ (by omega)]
        simp [List.append_assoc]

theorem natDigits_cons_digit (n : Nat) (h : n < 10) : natDigits n = [digitCharOf n] := by
  unfold natDigits
  simp [natDigitsAux, h]

theorem natDigits_split (n : Nat) (h : ¬ n < 10) :
    natDigits n = natDigits (n / 10) ++ [digitCharOf (n % 10)] := by
  have h1 : natDigits n = natDigitsAux n (n / 10) [digitCharOf (n % 10)] := by
    unfold natDigits
    simp [natDigitsAux, h]
  rw [h1, natDigitsAux_shift n (n / 10) _ (by
    have := Nat.div_lt_self (show 0 < n by omega) (show 1 < 10 by omega)
    omega)]
  rfl

theorem digitCharOf_toNat (n : Nat) (h : n < 10) : (digitCharOf n).toNat = 48 + n := by
  interval_cases n <;> rfl

theorem digitsValL_append_digit (ds : List Char) (c : Char) :
    digitsValL (ds ++ [c]) = 10 * digitsValL ds + (c.toNat - 48) := by
  unfold digitsValL
  rw [List.foldl_append]
  rfl

theorem digitsValL_natDigits (n : Nat) : digitsValL (natDigits n) = n := by
  induction n using Nat.strong_induction_on with
  | _ n ih =>
    by_cases h : n < 10
    · rw [natDigits_cons_digit n h]
      unfold digitsValL
      simp [digitCharOf_toNat n h]
    · rw [natDigits_split n h, digitsValL_append_digit]
      rw [ih (n / 10) (Nat.div_lt_self (by omega) (by omega))]
      rw [digitCharOf_toNat (n % 10) (Nat.mod_lt n (by omega))]
      omega

theorem natDigits_ne_nil (n : Nat) : natDigits n ≠ [] := by
  by_cases h : n < 10
  · rw [natDigits_cons_digit n h]
    simp
  · rw [natDigits_split n h]
    simp

theorem natDigits_digit_range (n : Nat) : ∀ c ∈ natDigits n, 48 ≤ c.toNat ∧ c.toNat ≤ 57 := by
  induction n using Nat.strong_induction_on with
  | _ n ih =>
    intro c hc
    by_cases h : n < 10
    · rw [natDigits_cons_digit n h] at hc
      rcases List.mem_singleton.mp hc with rfl
      rw [digitCharOf_toNat n h]
      omega
    · rw [natDigits_split n h] at hc
      rcases List.mem_append.mp hc with hc2 | hc2
      · exact ih (n / 10) (Nat.div_lt_self (by omega) (by omega)) c hc2
      · rcases List.mem_singleton.mp hc2 with rfl
        rw [digitCharOf_toNat (n % 10) (Nat.mod_lt n (by omega))]
        omega

theorem natDigits_all_isDigitL (n : Nat) : (natDigits n).all isDigitL = true := by
  rw [List.all_eq_true]
  intro c hc
  have := natDigits_digit_range n c hc
  unfold isDigitL
  rw [Bool.and_eq_true]
  constructor <;> simp <;> omega

theorem takeUntil_append_eq (p : Char → Bool) (cs : List Char) :
    (takeUntil p cs).1 ++ (takeUntil p cs).2 = cs := by
  induction cs with
  | nil => rfl
  | cons c rest ih =>
    simp only [takeUntil]
    by_cases h : p c = true
    · rw [if_pos h]
      rfl
    · rw [if_neg h]
      simpa using ih

theorem takeUntil_fst_no (p : Char → Bool) (cs : List Char) :
    ∀ c ∈ (takeUntil p cs).1, p c = false := by
  induction cs with
  | nil => intro c hc; exact absurd hc (List.not_mem_nil c)
  | cons c rest ih =>
    intro d hd
    simp only [takeUntil] at hd
    by_cases h : p c = true
    · rw [if_pos h] at hd
      exact absurd hd (List.not_mem_nil d)
    · rw [if_neg h] at hd
      rcases List.mem_cons.mp hd with rfl | hd2
      · exact Bool.eq_false_iff.mpr h
      · exact ih d hd2

theorem takeUntil_snd_head (p : Char → Bool) (cs : List Char) :
    (takeUntil p cs).2 = [] ∨ ∃ c t, (takeUntil p cs).2 = c :: t ∧ p c = true := by
  induction cs with
  | nil => exact Or.inl rfl
  | cons c rest ih =>
    simp only [takeUntil]
    by_cases h : p c = true
    · rw [if_pos h]
      exact Or.inr ⟨c, rest, rfl, h⟩
    · rw [if_neg h]
      simpa using ih

end Sogood

namespace CompanyLib

open Sogood

theorem splitScheme_cases (cs : List Char) (sch : String) (rest : List Char)
    (h : splitScheme cs = some (sch, rest)) : sch = "http" ∨ sch = "https" := by
  unfold splitScheme at h
  cases h1 : stripPrefixCI schemeHttps cs with
  | some r =>
    rw [h1] at h
    simp only [Option.some.injEq, Prod.mk.injEq] at h
    exact Or.inr h.1.symm
  | none =>
    rw [h1] at h
    cases h2 : stripPrefixCI schemeHttp cs with
    | some r =>
      rw [h2] at h
      simp only [Option.some.injEq, Prod.mk.injEq] at h
      exact Or.inl h.1.symm
    | none =>
      rw [h2] at h
      exact absurd h (by simp)

theorem parseAuthority_some (sch : String) (auth host : List Char) (port : Option Nat)
    (h : parseAuthority sch auth = some (host, port)) :
    host = lowerL (takeUntil (fun c => c == ':') auth).1 ∧ host ≠ [] ∧
      (port = none ∨ ∃ p, port = some p ∧ p ≤ 65535 ∧ defaultPortB sch p = false) := by
  simp only [parseAuthority] at h
  by_cases he : (lowerL (takeUntil (fun c => c == ':') auth).1).isEmpty = true
  · rw [if_pos he] at h
    exact absurd h (by simp)
  · rw [if_neg he] at h
    have hne : lowerL (takeUntil (fun c => c == ':') auth).1 ≠ [] := by
      intro hc
      exact he (by rw [hc]; rfl)
    cases hsnd : (takeUntil (fun c => c == ':') auth).2 with
    | nil =>
      rw [hsnd] at h
      simp only [Option.some.injEq, Prod.mk.injEq] at h
      exact ⟨h.1.symm, h.1 ▸ hne, Or.inl h.2.symm⟩
    | cons sep ds =>
      rw [hsnd] at h
      simp only at h
      by_cases hde : ds.isEmpty = true
      · rw [if_pos hde] at h
        simp only [Option.some.injEq, Prod.mk.injEq] at h
        exact ⟨h.1.symm, h.1 ▸ hne, Or.inl h.2.symm⟩
      · rw [if_neg hde] at h
        by_cases hall : ds.all isDigitL = true
        · rw [if_pos hall] at h
          by_cases hle : digitsValL ds ≤ 65535
          · rw [if_pos hle] at h
            by_cases hdef : defaultPortB sch (digitsValL ds) = true
            · rw [if_pos hdef] at h
              simp only [Option.some.injEq, Prod.mk.injEq] at h
              exact ⟨h.1.symm, h.1 ▸ hne, Or.inl h.2.symm⟩
            · rw [if_neg hdef] at h
              simp only [Option.some.injEq, Prod.mk.injEq] at h
              refine ⟨h.1.symm, h.1 ▸ hne, Or.inr ⟨digitsValL ds, h.2.symm, hle, ?_⟩⟩
              exact Bool.eq_false_iff.mpr hdef
          · rw [if_neg hle] at h
            exact absurd h (by simp)
        · rw [if_neg hall] at h
          exact absurd h (by simp)

theorem parsePath_fst_sub (rest : List Char) :
    ∀ c ∈ (parsePath rest).1, c ∈ rest ∨ c = '/' := by
  intro c hc
  simp only [parsePath] at hc
  by_cases he : ((takeUntil (fun c => c == '?')
      (takeUntil (fun c => c == '#') rest).1).1).isEmpty = true
  · rw [if_pos he] at hc
    exact Or.inr (List.mem_singleton.mp hc)
  · rw [if_neg he] at hc
    left
    have h1 : c ∈ (takeUntil (fun c => c == '#') rest).1 := by
      have := takeUntil_append_eq (fun c => c == '?') (takeUntil (fun c => c == '#') rest).1
      rw [← this]
      exact List.mem_append_left _ hc
    have := takeUntil_append_eq (fun c => c == '#') rest
    rw [← this]
    exact List.mem_append_left _ h1

theorem parsePath_fst_no_q (rest : List Char) :
    ∀ c ∈ (parsePath rest).1, (c == '?') = false := by
  intro c hc
  simp only [parsePath] at hc
  by_cases he : ((takeUntil (fun c => c == '?')
      (takeUntil (fun c => c == '#') rest).1).1).isEmpty = true
  · rw [if_pos he] at hc
    rcases List.mem_singleton.mp hc with rfl
    decide
  · rw [if_neg he] at hc
    exact takeUntil_fst_no _ _ c hc

theorem parsePath_fst_no_h (rest : List Char) :
    ∀ c ∈ (parsePath rest).1, (c == '#') = false := by
  intro c hc
  simp only [parsePath] at hc
  by_cases he : ((takeUntil (fun c => c == '?')
      (takeUntil (fun c => c == '#') rest).1).1).isEmpty = true
  · rw [if_pos he] at hc
    rcases List.mem_singleton.mp hc with rfl
    decide
  · rw [if_neg he] at hc
    have h1 : c ∈ (takeUntil (fun c => c == '#') rest).1 := by
      have := takeUntil_append_eq (fun c => c == '?') (takeUntil (fun c => c == '#') rest).1
      rw [← this]
      exact List.mem_append_left _ hc
    exact takeUntil_fst_no _ _ c h1

theorem parsePath_fst_head (rest : List Char)
    (h : ∀ c t, rest = c :: t → isAuthEnd c = true) :
    ∃ tl, (parsePath rest).1 = '/' :: tl := by
  cases rest with
  | nil => exact ⟨[], rfl⟩
  | cons c t =>
    have hc := h c t rfl
    have hcases : c = '/' ∨ c = '?' ∨ c = '#' := by
      unfold isAuthEnd at hc
      rcases Bool.or_eq_true _ _ |>.mp hc with h1 | h2
      · rcases Bool.or_eq_true _ _ |>.mp h1 with h3 | h4
        · exact Or.inl (beq_iff_eq.mp h3)
        · exact Or.inr (Or.inl (beq_iff_eq.mp h4))
      · exact Or.inr (Or.inr (beq_iff_eq.mp h2))
    rcases hcases with rfl | rfl | rfl
    · have hbh : takeUntil (fun c => c == '#') ('/' :: t) =
          ('/' :: (takeUntil (fun c => c == '#') t).1,
            (takeUntil (fun c => c == '#') t).2) := by
        simp only [takeUntil]
        rw [if_neg (by decide)]
      have hpq : takeUntil (fun c => c == '?')
          ('/' :: (takeUntil (fun c => c == '#') t).1) =
          ('/' :: (takeUntil (fun c => c == '?') (takeUntil (fun c => c == '#') t).1).1,
            (takeUntil (fun c => c == '?') (takeUntil (fun c => c == '#') t).1).2) := by
        simp only [takeUntil]
        rw [if_neg (by decide)]
      simp only [parsePath, hbh, hpq]
      rw [if_neg (by simp)]
      exact ⟨_, rfl⟩
    · have hbh : takeUntil (fun c => c == '#') ('?' :: t) =
          ('?' :: (takeUntil (fun c => c == '#') t).1,
            (takeUntil (fun c => c == '#') t).2) := by
        simp only [takeUntil]
        rw [if_neg (by decide)]
      have hpq : takeUntil (fun c => c == '?')
          ('?' :: (takeUntil (fun c => c == '#') t).1) =
          ([], '?' :: (takeUntil (fun c => c == '#') t).1) := by
        simp only [takeUntil]
        rw [if_pos (by decide)]
      simp only [parsePath, hbh, hpq]
      rw [if_pos (by decide)]
      exact ⟨[], rfl⟩
    · have hbh : takeUntil (fun c => c == '#') ('#' :: t) = ([], '#' :: t) := by
        simp only [takeUntil]
        rw [if_pos (by decide)]
      have hpq : takeUntil (fun c => c == '?') ([] : List Char) = ([], []) := rfl
      simp only [parsePath, hbh, hpq]
      rw [if_pos (by decide)]
      exact ⟨[], rfl⟩

theorem normalizePathL_spec (p : List Char) (hp : ∃ t, p = '/' :: t) :
    (∃ t, normalizePathL p = '/' :: t)
    ∧ (∀ c ∈ normalizePathL p, c ∈ p)
    ∧ (normalizePathL p = ['/'] ∨
        ∀ y, (normalizePathL p).getLast? = some y → (y == '/') = false) := by
  obtain ⟨t0, rfl⟩ := hp
  unfold normalizePathL
  rw [if_neg (by simp)]
  by_cases hroot : ('/' :: t0 : List Char) = ['/']
  · rw [if_pos hroot, hroot]
    exact ⟨⟨[], rfl⟩, fun c hc => hroot ▸ hc, Or.inl rfl⟩
  · rw [if_neg hroot]
    set q := (('/' :: t0).reverse.dropWhile (fun c => c == '/')).reverse with hq
    by_cases hqe : q.isEmpty = true
    · rw [if_pos hqe]
      refine ⟨⟨[], rfl⟩, ?_, Or.inl rfl⟩
      intro c hc
      rcases List.mem_singleton.mp hc with rfl
      exact List.mem_cons_self _ _
    · rw [if_neg hqe]
      have hqne : q ≠ [] := by
        intro hc
        exact hqe (by rw [hc]; rfl)
      have hqsub : ∀ c ∈ q, c ∈ ('/' :: t0 : List Char) := by
        intro c hc
        rw [hq] at hc
        rw [List.mem_reverse] at hc
        have := (List.dropWhile_suffix (fun c => c == '/')).subset hc
        exact List.mem_reverse.mp this
      have hqlast : ∀ y, q.getLast? = some y → (y == '/') = false := by
        intro y hy
        rw [hq, List.getLast?_eq_head?_reverse, List.reverse_reverse] at hy
        exact head?_dropWhile_false _ _ y hy
      refine ⟨?_, hqsub, Or.inr hqlast⟩
      have hpref : ∃ w, ('/' :: t0 : List Char) = q ++ w := by
        obtain ⟨w0, hw0⟩ := List.dropWhile_suffix
          (l := ('/' :: t0 : List Char).reverse) (fun c => c == '/')
        refine ⟨w0.reverse, ?_⟩
        have h2 := congrArg List.reverse hw0
        rw [List.reverse_append, List.reverse_reverse] at h2
        rw [hq]
        exact h2.symm
      obtain ⟨w, hw⟩ := hpref
      cases hqc : q with
      | nil => exact absurd hqc hqne
      | cons q0 qt =>
        rw [hqc] at hw
        simp only [List.cons_append] at hw
        obtain ⟨h1, _⟩ := List.cons.inj hw
        refine ⟨qt, ?_⟩
        rw [← h1]

end CompanyLib

namespace CompanyLib

open Sogood

theorem parseUrl_some (cs : List Char) (u : JsUrl) (h : parseUrl cs = some u) :
    ∃ rest,
      splitScheme cs = some (u.scheme, rest) ∧
      rest.any jsWs = false ∧
      parseAuthority u.scheme (takeUntil isAuthEnd rest).1 = some (u.host, u.port) ∧
      u.path = (parsePath (takeUntil isAuthEnd rest).2).1 ∧
      u.query = (parsePath (takeUntil isAuthEnd rest).2).2.1 ∧
      u.fragment = (parsePath (takeUntil isAuthEnd rest).2).2.2 := by
  simp only [parseUrl] at h
  cases hs : splitScheme cs with
  | none => rw [hs] at h; exact absurd h (by simp)
  | some pr =>
    obtain ⟨sch, rest⟩ := pr
    rw [hs] at h
    simp only at h
    by_cases hws : rest.any jsWs = true
    · rw [if_pos hws] at h
      exact absurd h (by simp)
    · rw [if_neg hws] at h
      cases ha : parseAuthority sch (takeUntil isAuthEnd rest).1 with
      | none => rw [ha] at h; exact absurd h (by simp)
      | some hp =>
        obtain ⟨host, port⟩ := hp
        rw [ha] at h
        simp only [Option.some.injEq] at h
        subst h
        exact ⟨rest, rfl, Bool.eq_false_iff.mpr hws, ha, rfl, rfl, rfl⟩

theorem canonicalize_eq_serialize (v t : String)
    (h : canonicalizeCompanyUrl (some v) = some t) :
    ∃ u, IsCanonUrl u ∧ t.data = serializeUrl u := by
  simp only [canonicalizeCompanyUrl] at h
  by_cases hraw : (trimL v.data).isEmpty = true
  · rw [if_pos hraw] at h
    exact absurd h (by simp)
  · rw [if_neg hraw] at h
    by_cases hurl : (!urlLikeB (trimL v.data)) = true
    · rw [if_pos hurl] at h
      exact absurd h (by simp)
    · rw [if_neg hurl] at h
      cases hp : parseUrl (trimL v.data) with
      | none => rw [hp] at h; exact absurd h (by simp)
      | some u =>
        rw [hp] at h
        simp only [Option.some.injEq] at h
        obtain ⟨rest, hs, hws, ha, hpath, _, _⟩ := parseUrl_some _ _ hp
        obtain ⟨hhost, hne, hport⟩ := parseAuthority_some _ _ _ _ ha
        have hrestws : ∀ c ∈ rest, jsWs c = false := by
          intro c hc
          cases hjc : jsWs c with
          | false => rfl
          | true => exact absurd (hws ▸ List.any_eq_true.mpr ⟨c, hc, hjc⟩) (by simp)
        have har1 : ∀ c ∈ (takeUntil isAuthEnd rest).1, c ∈ rest := by
          intro c hc
          rw [← takeUntil_append_eq isAuthEnd rest]
          exact List.mem_append_left _ hc
        have har2 : ∀ c ∈ (takeUntil isAuthEnd rest).2, c ∈ rest := by
          intro c hc
          rw [← takeUntil_append_eq isAuthEnd rest]
          exact List.mem_append_right _ hc
        have hhp1 : ∀ c ∈ (takeUntil (fun c => c == ':') (takeUntil isAuthEnd rest).1).1,
            c ∈ (takeUntil isAuthEnd rest).1 := by
          intro c hc
          rw [← takeUntil_append_eq (fun c => c == ':') (takeUntil isAuthEnd rest).1]
          exact List.mem_append_left _ hc
        have hll : lowerL u.host = u.host := by
          rw [hhost]
          exact lowerL_idem _
        have hH_ws : ∀ c ∈ u.host, jsWs c = false := by
          intro c hc
          rw [hhost] at hc
          obtain ⟨c0, hc0, rfl⟩ := List.mem_map.mp hc
          exact jsWs_jsToLower (hrestws c0 (har1 c0 (hhp1 c0 hc0)))
        have hH_end : ∀ c ∈ u.host, isAuthEnd c = false := by
          intro c hc
          rw [hhost] at hc
          obtain ⟨c0, hc0, rfl⟩ := List.mem_map.mp hc
          exact isAuthEnd_jsToLower (takeUntil_fst_no isAuthEnd rest c0 (hhp1 c0 hc0))
        have hH_colon : ∀ c ∈ u.host, (c == ':') = false := by
          intro c hc
          rw [hhost] at hc
          obtain ⟨c0, hc0, rfl⟩ := List.mem_map.mp hc
          exact colon_jsToLower (takeUntil_fst_no (fun c => c == ':') _ c0 hc0)
        have hhead : ∃ tl, (parsePath (takeUntil isAuthEnd rest).2).1 = '/' :: tl := by
          apply parsePath_fst_head
          intro c tl hct
          rcases takeUntil_snd_head isAuthEnd rest with h0 | ⟨c1, t1, h1, h2⟩
          · rw [h0] at hct
            exact absurd hct (by simp)
          · rw [h1] at hct
            obtain ⟨rfl, _⟩ := List.cons.inj hct
            exact h2
        obtain ⟨hnhead, hnsub, hnnorm⟩ := normalizePathL_spec u.path (hpath ▸ hhead)
        refine ⟨⟨u.scheme, lowerL u.host, dropDefaultPort u.scheme u.port,
                 normalizePathL u.path, none, none⟩, ?_, ?_⟩
        · refine ⟨splitScheme_cases _ _ _ hs, ?_, lowerL_idem _, ?_, ?_, ?_, ?_, hnhead,
                  ?_, ?_, ?_, hnnorm, rfl, rfl⟩
          · rw [hll]
            exact hne
          · intro c hc
            rw [hll] at hc
            exact hH_ws c hc
          · intro c hc
            rw [hll] at hc
            exact hH_end c hc
          · intro c hc
            rw [hll] at hc
            exact hH_colon c hc
          · intro p hp2
            rcases hport with h0 | ⟨p0, hp0, hle, hdef⟩
            · rw [show (⟨u.scheme, lowerL u.host, dropDefaultPort u.scheme u.port,
                  normalizePathL u.path, none, none⟩ : JsUrl).port =
                  dropDefaultPort u.scheme u.port from rfl, h0] at hp2
              exact absurd hp2 (by simp [dropDefaultPort])
            · rw [show (⟨u.scheme, lowerL u.host, dropDefaultPort u.scheme u.port,
                  normalizePathL u.path, none, none⟩ : JsUrl).port =
                  dropDefaultPort u.scheme u.port from rfl, hp0] at hp2
              simp only [dropDefaultPort] at hp2
              rw [hdef] at hp2
              simp only [Bool.false_eq_true, if_false, Option.some.injEq] at hp2
              rw [← hp2]
              exact ⟨hle, hdef⟩
          · intro c hc
            rcases parsePath_fst_sub _ c (hpath ▸ hnsub c hc) with h0 | rfl
            · exact hrestws c (har2 c h0)
            · decide
          · intro c hc
            exact parsePath_fst_no_q _ c (hpath ▸ hnsub c hc)
          · intro c hc
            exact parsePath_fst_no_h _ c (hpath ▸ hnsub c hc)
        · exact congrArg String.data h.symm

end CompanyLib

namespace CompanyLib

open Sogood

theorem splitScheme_https (R : List Char) :
    splitScheme ('h' :: 't' :: 't' :: 'p' :: 's' :: ':' :: '/' :: '/' :: R) =
      some ("https", R) := rfl

theorem splitScheme_http (R : List Char) :
    splitScheme ('h' :: 't' :: 't' :: 'p' :: ':' :: '/' :: '/' :: R) =
      some ("http", R) := rfl

theorem serializeUrl_canon (sch : String) (host : List Char) (port : Option Nat)
    (path : List Char) :
    serializeUrl ⟨sch, host, port, path, none, none⟩ =
      sch.data ++ ':' :: '/' :: '/' :: (host ++ (portTailL port ++ path)) := by
  cases port with
  | none => simp [serializeUrl, portTailL]
  | some p => simp [serializeUrl, portTailL]

theorem portTailL_ws (port : Option Nat) : ∀ c ∈ portTailL port, jsWs c = false := by
  cases port with
  | none =>
    intro c hc
    simp only [portTailL] at hc
    exact absurd hc (List.not_mem_nil c)
  | some p =>
    intro c hc
    simp only [portTailL] at hc
    rcases List.mem_cons.mp hc with rfl | hc2
    · decide
    · have := natDigits_digit_range p c hc2
      exact jsWs_eq_false_of_toNat (by omega)

theorem portTailL_end (port : Option Nat) :
    ∀ c ∈ portTailL port, isAuthEnd c = false := by
  cases port with
  | none =>
    intro c hc
    simp only [portTailL] at hc
    exact absurd hc (List.not_mem_nil c)
  | some p =>
    intro c hc
    simp only [portTailL] at hc
    rcases List.mem_cons.mp hc with rfl | hc2
    · decide
    · have := natDigits_digit_range p c hc2
      exact isAuthEnd_of_toNat (by omega)

theorem parseAuthority_canon (sch : String) (host : List Char) (port : Option Nat)
    (hne : host ≠ []) (hlow : lowerL host = host)
    (hcolon : ∀ c ∈ host, (c == ':') = false)
    (hport : ∀ p, port = some p → p ≤ 65535 ∧ defaultPortB sch p = false) :
    parseAuthority sch (host ++ portTailL port) = some (host, port) := by
  have hnemp : ¬ (lowerL host).isEmpty = true := by
    rw [hlow]
    intro hx
    exact hne (List.isEmpty_iff.mp hx)
  cases port with
  | none =>
    simp only [portTailL, List.append_nil, parseAuthority]
    rw [takeUntil_eq_of_no_sep (fun c => c == ':') host hcolon]
    dsimp only
    rw [if_neg hnemp, hlow]
  | some p =>
    simp only [portTailL, parseAuthority]
    rw [takeUntil_append (fun c => c == ':') host ':' (natDigits p) hcolon (by decide)]
    dsimp only
    rw [if_neg hnemp]
    rw [if_neg (fun hx => natDigits_ne_nil p (List.isEmpty_iff.mp hx))]
    rw [if_pos (natDigits_all_isDigitL p)]
    rw [digitsValL_natDigits]
    rw [if_pos (hport p rfl).1]
    rw [if_neg (by rw [(hport p rfl).2]; simp : ¬ defaultPortB sch p = true)]
    rw [hlow]

theorem parsePath_canon (path : List Char)
    (hq : ∀ c ∈ path, (c == '?') = false)
    (hh : ∀ c ∈ path, (c == '#') = false)
    (hne : path ≠ []) :
    parsePath path = (path, none, none) := by
  simp only [parsePath]
  rw [takeUntil_eq_of_no_sep (fun c => c == '#') path hh]
  dsimp only
  rw [takeUntil_eq_of_no_sep (fun c => c == '?') path hq]
  dsimp only
  rw [if_neg (fun hx => hne (List.isEmpty_iff.mp hx))]

end CompanyLib

namespace CompanyLib

open Sogood

theorem canonicalize_fixed_aux (sch : String) (host : List Char) (port : Option Nat)
    (path : List Char)
    (hsplit : splitScheme (sch.data ++ ':' :: '/' :: '/' ::
        (host ++ (portTailL port ++ path))) =
      some (sch, host ++ (portTailL port ++ path)))
    (hschd : ∃ d, sch.data = 'h' :: d)
    (hne : host ≠ []) (hlow : lowerL host = host)
    (hws : ∀ c ∈ host, jsWs c = false)
    (hend : ∀ c ∈ host, isAuthEnd c = false)
    (hcolon : ∀ c ∈ host, (c == ':') = false)
    (hport : ∀ p, port = some p → p ≤ 65535 ∧ defaultPortB sch p = false)
    (hhead : ∃ t, path = '/' :: t)
    (hpws : ∀ c ∈ path, jsWs c = false)
    (hpq : ∀ c ∈ path, (c == '?') = false)
    (hph : ∀ c ∈ path, (c == '#') = false)
    (hnorm : path = ['/'] ∨ ∀ y, path.getLast? = some y → (y == '/') = false) :
    canonicalizeCompanyUrl (some ⟨serializeUrl ⟨sch, host, port, path, none, none⟩⟩) =
      some ⟨serializeUrl ⟨sch, host, port, path, none, none⟩⟩ := by
  obtain ⟨d, hd⟩ := hschd
  have hpathne : path ≠ [] := by
    obtain ⟨t, ht⟩ := hhead
    rw [ht]
    simp
  obtain ⟨h0, ht, hhc⟩ : ∃ h0 ht, host = h0 :: ht := by
    cases host with
    | nil => exact absurd rfl hne
    | cons a b => exact ⟨a, b, rfl⟩
  rw [serializeUrl_canon]
  set S : List Char :=
    sch.data ++ ':' :: '/' :: '/' :: (host ++ (portTailL port ++ path)) with hSdef
  have hassoc : S = (sch.data ++ ':' :: '/' :: '/' :: (host ++ portTailL port)) ++ path := by
    rw [hSdef]
    simp
  have hheadS : ∀ x, S.head? = some x → jsWs x = false := by
    intro x hx
    rw [hSdef, hd, List.cons_append, List.head?_cons] at hx
    injection hx with h1
    rw [← h1]
    decide
  have hlastS : ∀ x, S.getLast? = some x → jsWs x = false := by
    intro x hx
    rw [hassoc, List.getLast?_append] at hx
    cases hpl : path.getLast? with
    | none => exact absurd (List.getLast?_eq_none_iff.mp hpl) hpathne
    | some y =>
      rw [hpl, Option.or_some] at hx
      injection hx with h1
      have hy : y ∈ path := by
        rw [List.getLast?_eq_head?_reverse] at hpl
        exact List.mem_reverse.mp (List.mem_of_mem_head? (Option.mem_def.mpr hpl))
      rw [← h1]
      exact hpws y hy
  have htrim : trimL S = S := trimL_eq_self S hheadS hlastS
  have hSne : ¬ S.isEmpty = true := by
    intro hx
    have h2 := List.isEmpty_iff.mp hx
    rw [hSdef, hd] at h2
    exact absurd h2 (by simp)
  have hRany : (host ++ (portTailL port ++ path)).any jsWs = false := by
    rw [List.any_eq_false]
    intro c hc
    rcases List.mem_append.mp hc with h1 | h2
    · rw [hws c h1]; simp
    · rcases List.mem_append.mp h2 with h3 | h4
      · rw [portTailL_ws port c h3]; simp
      · rw [hpws c h4]; simp
  have hurl : urlLikeB S = true := by
    rw [hSdef]
    unfold urlLikeB
    rw [hsplit, hhc, List.cons_append]
    dsimp only
    rw [hws h0 (by rw [hhc]; exact List.mem_cons_self h0 ht)]
    rfl
  have har : takeUntil isAuthEnd (host ++ (portTailL port ++ path)) =
      (host ++ portTailL port, path) := by
    obtain ⟨pt, hpt⟩ := hhead
    rw [hpt]
    rw [show host ++ (portTailL port ++ '/' :: pt) =
        (host ++ portTailL port) ++ '/' :: pt from by simp]
    apply takeUntil_append
    · intro x hxm
      rcases List.mem_append.mp hxm with h1 | h2
      · exact hend x h1
      · exact portTailL_end port x h2
    · decide
  have hparse : parseUrl S = some ⟨sch, host, port, path, none, none⟩ := by
    rw [hSdef]
    simp only [parseUrl]
    rw [hsplit]
    dsimp only
    rw [if_neg (by rw [hRany]; simp :
      ¬ (host ++ (portTailL port ++ path)).any jsWs = true)]
    rw [har]
    dsimp only
    rw [parseAuthority_canon sch host port hne hlow hcolon hport]
    dsimp only
    rw [parsePath_canon path hpq hph hpathne]
  have hdp : dropDefaultPort sch port = port := by
    cases port with
    | none => rfl
    | some p =>
      simp only [dropDefaultPort]
      rw [if_neg (by rw [(hport p rfl).2]; simp : ¬ defaultPortB sch p = true)]
  have hnp : normalizePathL path = path := by
    rcases hnorm with h1 | hlast
    · rw [h1]
      decide
    · have hnnil : ¬ path.isEmpty = true := fun hx => hpathne (List.isEmpty_iff.mp hx)
      have hnroot : path ≠ ['/'] := by
        intro hc
        have h2 := hlast '/' (by rw [hc]; rfl)
        exact absurd h2 (by decide)
      simp only [normalizePathL]
      rw [if_neg hnnil, if_neg hnroot]
      have hdw : path.reverse.dropWhile (fun c => c == '/') = path.reverse := by
        apply dropWhile_eq_self_of_head
        intro x hx
        apply hlast
        rw [List.getLast?_eq_head?_reverse]
        exact hx
      rw [hdw, List.reverse_reverse, if_neg hnnil]
  simp only [canonicalizeCompanyUrl]
  rw [htrim]
  rw [if_neg hSne]
  rw [if_neg (by rw [hurl]; simp : ¬ (!urlLikeB S) = true)]
  rw [hparse]
  dsimp only
  rw [hlow, hdp, hnp, serializeUrl_canon, ← hSdef]

end CompanyLib

namespace CompanyLib

open Sogood

theorem canonicalize_serialize_fixed (u : JsUrl) (hu : IsCanonUrl u) :
    canonicalizeCompanyUrl (some ⟨serializeUrl u⟩) = some ⟨serializeUrl u⟩ := by
  obtain ⟨sch, host, port, path, query, fragment⟩ := u
  obtain ⟨hsch, hne, hlow, hws, hend, hcolon, hport, hhead, hpws, hpq, hph, hnorm,
    hqn, hfn⟩ := hu
  have hq2 : query = none := hqn
  have hf2 : fragment = none := hfn
  subst hq2
  subst hf2
  rcases hsch with h1 | h1
  · have hs2 : sch = "http" := h1
    subst hs2
    exact canonicalize_fixed_aux "http" host port path
      (splitScheme_http (host ++ (portTailL port ++ path)))
      ⟨['t', 't', 'p'], rfl⟩ hne hlow hws hend hcolon hport hhead hpws hpq hph hnorm
  · have hs2 : sch = "https" := h1
    subst hs2
    exact canonicalize_fixed_aux "https" host port path
      (splitScheme_https (host ++ (portTailL port ++ path)))
      ⟨['t', 't', 'p', 's'], rfl⟩ hne hlow hws hend hcolon hport hhead hpws hpq hph hnorm

end CompanyLib

/-- C6: `canonicalizeCompanyUrl` is idempotent on its successful outputs — if a
value canonicalizes to `t`, then canonicalizing `t` again returns `t` itself
unchanged. -/
theorem canonicalize_idempotent (x t : String)
    (h : CompanyLib.canonicalizeCompanyUrl (some x) = some t) :
    CompanyLib.canonicalizeCompanyUrl (some t) = some t := by
  obtain ⟨u, hu, ht⟩ := CompanyLib.canonicalize_eq_serialize x t h
  have ht2 : t = ⟨CompanyLib.serializeUrl u⟩ := by
    cases t with
    | mk dt => exact congrArg String.mk ht
  rw [ht2]
  exact CompanyLib.canonicalize_serialize_fixed u hu

/-- Witness for C6: `"https://Example.com/a/"` canonicalizes to
`"https://example.com/a"`, and canonicalizing that output again returns it
unchanged. -/
theorem canonicalize_idempotent_witness :
    CompanyLib.canonicalizeCompanyUrl (some "https://Example.com/a/") =
      some "https://example.com/a" ∧
    CompanyLib.canonicalizeCompanyUrl (some "https://example.com/a") =
      some "https://example.com/a" :=
  ⟨by decide, canonicalize_idempotent "https://Example.com/a/" "https://example.com/a"
    (by decide)⟩
